import Mathlib

/-! # TaskForge TDQ engine: a shallow embedding

This file embeds the data model and the metric/optimizer code of the
TaskForge repository (src/core/types.ts, src/metrics/structural.ts,
src/metrics/semantic.ts, src/metrics/tdq.ts, the optimizer module) and
proves properties of the embedded code.

Modelling conventions:
* JavaScript numbers are modelled as rationals (`ℚ`); all arithmetic the
  metrics perform (sums, means, variance, ratios) is exact rational
  arithmetic.
* A JavaScript `Map` is modelled as an association list with JS `Map`
  semantics: `set` on an existing key overwrites the value but keeps the
  original insertion position; `keys()` / `values()` follow insertion order.
* Platform builtins and external collaborators with no design content of
  their own (`parseFloat`, `parseInt`, `Math.exp`, `Math.sqrt`, the LLM
  chat and embedding clients, prompt-text construction, and JSON
  deserialization) are taken as parameters of the development; every
  theorem is universally quantified over them.
* `throw` is modelled with `Except String`; `async/await` sequencing of
  pure collaborators is modelled by ordinary function application.
-/

namespace TaskForge

/-- Task priority enum from src/core/types.ts. -/
inductive TaskPriority where
  | P0
  | P1
  | P2
deriving DecidableEq

/-- `TaskNode` from src/core/types.ts: id, title, optional description,
optional priority, optional effort estimate, children, dependency ids.
The optional `dependencies` array is modelled as a plain list (an absent
array behaves exactly like an empty one in every consumer: each site
guards with `if (node.dependencies)` before iterating). -/
inductive TaskNode where
  | mk : String → String → Option String → Option TaskPriority → Option ℚ →
      List TaskNode → List String → TaskNode

def TaskNode.id : TaskNode → String
  | .mk i _ _ _ _ _ _ => i

def TaskNode.title : TaskNode → String
  | .mk _ t _ _ _ _ _ => t

def TaskNode.description : TaskNode → Option String
  | .mk _ _ d _ _ _ _ => d

def TaskNode.children : TaskNode → List TaskNode
  | .mk _ _ _ _ _ c _ => c

def TaskNode.dependencies : TaskNode → List String
  | .mk _ _ _ _ _ _ d => d

/-- Association list modelling a JS `Map<string, α>`. -/
abbrev JsMap (α : Type) := List (String × α)

/-- JS `Map.prototype.get` (first — and, keys being unique, only — binding). -/
def mapGet {α : Type} : JsMap α → String → Option α
  | [], _ => none
  | p :: rest, k => if p.1 = k then some p.2 else mapGet rest k

/-- JS `Map.prototype.has`. -/
def mapHas {α : Type} (m : JsMap α) (k : String) : Bool :=
  (mapGet m k).isSome

/-- JS `Map.prototype.set`: overwrite in place if the key exists (keeping the
key's original insertion position), otherwise append a fresh binding. -/
def mapSet {α : Type} (m : JsMap α) (k : String) (v : α) : JsMap α :=
  if mapHas m k then m.map (fun p => if p.1 = k then (k, v) else p) else m ++ [(k, v)]

def mapKeys {α : Type} (m : JsMap α) : List String := m.map Prod.fst

def mapValues {α : Type} (m : JsMap α) : List α := m.map Prod.snd

/-- Build a map by repeated `set`, in list order. -/
def mapOfList {α : Type} (l : List (String × α)) : JsMap α :=
  l.foldl (fun m p => mapSet m p.1 p.2) []

/-- Pre-order traversal of a forest: each root, then its children's forest,
then the remaining roots. `preList [root]` is the node sequence in which the
`getAllNodes` helpers of structural.ts and semantic.ts and `getNodeDepths`
visit the tree (semantic.ts's `getAllNodes` returns exactly this array). -/
def preList : List TaskNode → List TaskNode
  | [] => []
  | .mk i t d p e cs deps :: rest =>
      .mk i t d p e cs deps :: (preList cs ++ preList rest)

/-- Pre-order traversal paired with depth (first roots at depth `d`, children
one deeper), mirroring `getNodeDepths`'s recursion. -/
def preDepths : ℕ → List TaskNode → List (TaskNode × ℕ)
  | _, [] => []
  | d, .mk i t de p e cs deps :: rest =>
      (.mk i t de p e cs deps, d) :: (preDepths (d + 1) cs ++ preDepths d rest)

/-- `getAllNodes` from structural.ts: traverse in pre-order performing
`nodes.set(node.id, node)`; this is the fold of `mapSet` over the pre-order
node list. -/
def getAllNodes (root : TaskNode) : JsMap TaskNode :=
  mapOfList ((preList [root]).map (fun n => (n.id, n)))

/-- `getNodeDepths` from structural.ts: traverse in pre-order performing
`depths.set(node.id, depth)` with the root at depth 0. -/
def getNodeDepths (root : TaskNode) : JsMap ℕ :=
  mapOfList ((preDepths 0 [root]).map (fun p => (p.1.id, p.2)))

/-- Metric-specific diagnostic payloads (`details` fields of the
`EvaluationResult` objects the metrics return). -/
inductive Details where
  | acyclicityD (hasCycle : Bool)
  | hierarchyD (totalEdges consistentEdges : ℕ)
  | balanceD (variance : ℚ) (childCounts : Option (List ℕ))
  | redundancyTrivialD (redundantPairs totalPairs : ℕ)
  | redundancyD (redundantPairs totalPairs : ℕ) (threshold : ℚ)
      (similarPairs : List (ℕ × ℕ × ℚ))
  | granularityTrivialD (leafCount : ℕ)
  | granularityD (leafCount : ℕ) (idealMin idealMax : ℚ)
      (efforts : List (String × ℚ × ℚ))
  | executabilityTrivialD (leafCount : ℕ)
  | executabilityD (leafCount : ℕ) (ratings : List (String × ℤ × ℚ))

/-- `EvaluationResult` from src/core/types.ts. -/
structure EvaluationResult where
  score : ℚ
  details : Option Details

/-- Depth lookup `depths.get(id)!`: every id the metrics look up is a key of
the depth map, so the non-null assertion is rendered total with `getD 0`. -/
def depthOf (depths : JsMap ℕ) (k : String) : ℕ :=
  (mapGet depths k).getD 0

/-- The (source depth, target depth) pairs of the merged-graph edges in the
order `computeHierarchyConsistency` enumerates them: for each node value of
the id map, its decomposition edges (one per child), then its dependency
edges whose target id resolves in the map. -/
def edgeDepthPairs (root : TaskNode) : List (ℕ × ℕ) :=
  let nodes := getAllNodes root
  let depths := getNodeDepths root
  (mapValues nodes).flatMap (fun n =>
    n.children.map (fun c => (depthOf depths n.id, depthOf depths c.id)) ++
    (n.dependencies.filter (fun d => mapHas nodes d)).map
      (fun d => (depthOf depths n.id, depthOf depths d)))

/-- `computeHierarchyConsistency` from structural.ts (§3.2): `totalEdges`
counts the enumerated edges, `consistentEdges` those with
depth(target) > depth(source); score 1.0 outright when there are no edges. -/
def computeHierarchyConsistency (root : TaskNode) : EvaluationResult :=
  let pairs := edgeDepthPairs root
  let totalEdges := pairs.length
  let consistentEdges := (pairs.filter (fun p => p.1 < p.2)).length
  if totalEdges = 0 then ⟨1, none⟩
  else ⟨(consistentEdges : ℚ) / (totalEdges : ℚ),
        some (.hierarchyD totalEdges consistentEdges)⟩

/-- `computeHierarchyBalance` from structural.ts (§3.3): sample the child
counts of the map's node values that have at least one child; fewer than two
samples give score 1.0, otherwise 1 − min(1, populationVariance / 5). -/
def computeHierarchyBalance (root : TaskNode) : EvaluationResult :=
  let nodes := getAllNodes root
  let childCounts : List ℕ :=
    ((mapValues nodes).filter (fun n => 0 < n.children.length)).map
      (fun n => n.children.length)
  if childCounts.length < 2 then ⟨1, some (.balanceD 0 none)⟩
  else
    let mean : ℚ := ((childCounts.map (fun c => (c : ℚ))).sum) / (childCounts.length : ℚ)
    let variance : ℚ :=
      ((childCounts.map (fun c => ((c : ℚ) - mean) ^ 2)).sum) / (childCounts.length : ℚ)
    ⟨1 - min 1 (variance / 5), some (.balanceD variance (some childCounts))⟩

/-! ## Basic facts about the JS map model -/

theorem mapGet_eq_none_iff {α : Type} (m : JsMap α) (k : String) :
    mapGet m k = none ↔ k ∉ mapKeys m := by
  induction m with
  | nil => simp [mapGet, mapKeys]
  | cons p rest ih =>
    simp only [mapGet, mapKeys, List.map_cons, List.mem_cons]
    by_cases h : p.1 = k
    · simp [h]
    · simp only [if_neg h, ih, mapKeys]
      constructor
      · rintro hn (h1 | h2)
        · exact h h1.symm
        · exact hn h2
      · intro hn h2
        exact hn (Or.inr h2)

theorem mapHas_iff {α : Type} (m : JsMap α) (k : String) :
    mapHas m k = true ↔ k ∈ mapKeys m := by
  rcases hg : mapGet m k with _ | v
  · simp [mapHas, hg, (mapGet_eq_none_iff m k).mp hg]
  · have : k ∈ mapKeys m := by
      by_contra hk
      rw [(mapGet_eq_none_iff m k).mpr hk] at hg
      cases hg
    simp [mapHas, hg, this]

theorem mapHas_eq_false {α : Type} (m : JsMap α) (k : String) (h : k ∉ mapKeys m) :
    mapHas m k = false := by
  rcases hb : mapHas m k
  · rfl
  · exact absurd ((mapHas_iff m k).mp hb) h

theorem mapKeys_mapSet {α : Type} (m : JsMap α) (k : String) (v : α) :
    mapKeys (mapSet m k v) = if k ∈ mapKeys m then mapKeys m else mapKeys m ++ [k] := by
  by_cases h : k ∈ mapKeys m
  · have hh : mapHas m k = true := (mapHas_iff m k).mpr h
    rw [if_pos h]
    simp only [mapSet, hh, if_true, mapKeys, List.map_map]
    refine List.map_congr_left ?_
    intro p _
    by_cases hp : p.1 = k <;> simp [hp]
  · rw [if_neg h]
    simp [mapSet, mapHas_eq_false m k h, mapKeys]

theorem mapGet_append {α : Type} (m m' : JsMap α) (q : String) :
    mapGet (m ++ m') q = match mapGet m q with
      | some v => some v
      | none => mapGet m' q := by
  induction m with
  | nil => simp [mapGet]
  | cons p rest ih =>
    by_cases h : p.1 = q <;> simp [mapGet, h, ih]

theorem mapGet_overwrite_ne {α : Type} (m : JsMap α) (k : String) (v : α) (q : String)
    (hq : k ≠ q) :
    mapGet (m.map (fun p => if p.1 = k then (k, v) else p)) q = mapGet m q := by
  induction m with
  | nil => simp [mapGet]
  | cons p rest ih =>
    by_cases hp : p.1 = k
    · have : p.1 ≠ q := by rw [hp]; exact hq
      simp [mapGet, hp, hq, this, ih]
    · by_cases hpq : p.1 = q <;> simp [mapGet, hp, hpq, ih, Ne.symm hq]

theorem mapGet_overwrite_self {α : Type} (m : JsMap α) (k : String) (v : α) :
    mapGet (m.map (fun p => if p.1 = k then (k, v) else p)) k =
      (mapGet m k).map (fun _ => v) := by
  induction m with
  | nil => simp [mapGet]
  | cons p rest ih =>
    by_cases hp : p.1 = k <;> simp [mapGet, hp, ih]

theorem mapGet_mapSet {α : Type} (m : JsMap α) (k : String) (v : α) (q : String) :
    mapGet (mapSet m k v) q = if k = q then some v else mapGet m q := by
  by_cases hh : mapHas m k = true
  · simp only [mapSet, hh, if_true]
    by_cases hq : k = q
    · subst hq
      rcases hg : mapGet m k with _ | w
      · rw [mapGet_eq_none_iff] at hg
        exact absurd ((mapHas_iff m k).mp hh) hg
      · simp [mapGet_overwrite_self, hg]
    · simp [mapGet_overwrite_ne m k v q hq, hq]
  · have hb : mapHas m k = false := by
      rcases hbb : mapHas m k
      · rfl
      · exact absurd hbb hh
    have hk : mapGet m k = none :=
      (mapGet_eq_none_iff m k).mpr (fun hm => hh ((mapHas_iff m k).mpr hm))
    simp only [mapSet, hb, Bool.false_eq_true, if_false]
    rw [mapGet_append]
    by_cases hq : k = q
    · subst hq
      simp [hk, mapGet]
    · rcases hg : mapGet m q with _ | w <;> simp [hg, mapGet, hq]

theorem mapOfList_append_of_disjoint {α : Type} (l : List (String × α)) :
    ∀ m : JsMap α, (l.map Prod.fst).Nodup →
    (∀ k ∈ l.map Prod.fst, k ∉ mapKeys m) →
    l.foldl (fun m p => mapSet m p.1 p.2) m = m ++ l := by
  induction l with
  | nil => intro m _ _; simp
  | cons p rest ih =>
    intro m hnd hdis
    have hp : p.1 ∉ mapKeys m := hdis p.1 (by simp)
    have hset : mapSet m p.1 p.2 = m ++ [p] := by
      simp [mapSet, mapHas_eq_false m p.1 hp]
    rw [List.map_cons, List.nodup_cons] at hnd
    have hdis' : ∀ k ∈ rest.map Prod.fst, k ∉ mapKeys (m ++ [p]) := by
      intro k hk
      have hk1 : k ∉ mapKeys m := hdis k (by simp [hk])
      have hk2 : k ≠ p.1 := fun h => hnd.1 (by rw [← h]; exact hk)
      simp only [mapKeys, List.map_append, List.map_cons, List.map_nil, List.mem_append,
        List.mem_cons, List.not_mem_nil]
      rintro (h1 | h2 | h3)
      · exact hk1 h1
      · exact hk2 h2
      · exact h3
    calc (p :: rest).foldl (fun m p => mapSet m p.1 p.2) m
        = rest.foldl (fun m p => mapSet m p.1 p.2) (m ++ [p]) := by
          simp only [List.foldl_cons, hset]
      _ = (m ++ [p]) ++ rest := ih (m ++ [p]) hnd.2 hdis'
      _ = m ++ p :: rest := by simp

theorem mapOfList_of_nodup {α : Type} (l : List (String × α))
    (hnd : (l.map Prod.fst).Nodup) : mapOfList l = l := by
  have := mapOfList_append_of_disjoint l [] hnd (by simp [mapKeys])
  simpa [mapOfList] using this

theorem mapGet_of_mem_nodup {α : Type} (l : JsMap α) (k : String) (v : α)
    (hnd : (l.map Prod.fst).Nodup) (hm : (k, v) ∈ l) : mapGet l k = some v := by
  induction l with
  | nil => cases hm
  | cons p rest ih =>
    rw [List.map_cons, List.nodup_cons] at hnd
    rcases List.mem_cons.mp hm with h | h
    · subst h; simp [mapGet]
    · have hk : p.1 ≠ k := by
        intro hpk
        exact hnd.1 (List.mem_map.mpr ⟨(k, v), h, hpk.symm⟩)
      simp [mapGet, hk, ih hnd.2 h]

/-! ## Basic facts about the pre-order traversal -/

/-- The ids of the tree's nodes, in pre-order. -/
def nodeIds (root : TaskNode) : List String := (preList [root]).map TaskNode.id

theorem preList_cons (n : TaskNode) (rest : List TaskNode) :
    preList (n :: rest) = n :: (preList n.children ++ preList rest) := by
  cases n
  simp [preList, TaskNode.children]

theorem self_mem_preList (l : List TaskNode) (n : TaskNode) (h : n ∈ l) :
    n ∈ preList l := by
  induction l with
  | nil => cases h
  | cons t rest ih =>
    rw [preList_cons]
    rcases List.mem_cons.mp h with rfl | h2
    · exact .head _
    · exact .tail _ (List.mem_append.mpr (.inr (ih h2)))

theorem preDepths_map_fst (d : ℕ) (l : List TaskNode) :
    (preDepths d l).map Prod.fst = preList l := by
  induction l using preList.induct generalizing d with
  | case1 => simp [preDepths, preList]
  | case2 i t de p e cs deps rest ih1 ih2 =>
    simp [preDepths, preList, ih1, ih2]

theorem self_mem_preDepths (d : ℕ) (l : List TaskNode) (n : TaskNode) (h : n ∈ l) :
    (n, d) ∈ preDepths d l := by
  induction l with
  | nil => cases h
  | cons t rest ih =>
    rcases List.mem_cons.mp h with h1 | h2
    · subst h1
      cases n
      simp [preDepths]
    · cases t
      simp only [preDepths]
      exact .tail _ (List.mem_append.mpr (.inr (ih h2)))

theorem preDepths_children (l : List TaskNode) (d0 : ℕ) :
    ∀ n d, (n, d) ∈ preDepths d0 l → ∀ c ∈ n.children, (c, d + 1) ∈ preDepths d0 l := by
  induction l using preList.induct generalizing d0 with
  | case1 => intro n d h; simp [preDepths] at h
  | case2 i t de p e cs deps rest ih1 ih2 =>
    intro n d h c hc
    simp only [preDepths, List.mem_cons, List.mem_append] at h
    rcases h with h | h | h
    · have hn : n = TaskNode.mk i t de p e cs deps ∧ d = d0 := by
        exact ⟨congrArg Prod.fst h, congrArg Prod.snd h⟩
      rcases hn with ⟨hn, hd⟩
      subst hn hd
      have : c ∈ cs := hc
      simp only [preDepths, List.mem_cons, List.mem_append]
      exact .inr (.inl (self_mem_preDepths (d + 1) cs c this))
    · simp only [preDepths, List.mem_cons, List.mem_append]
      exact .inr (.inl (ih1 d0.succ n d h c hc))
    · simp only [preDepths, List.mem_cons, List.mem_append]
      exact .inr (.inr (ih2 d0 n d h c hc))

/-! ## The id and depth maps on trees with pairwise-distinct ids

The data model (spec §3) requires node ids to be unique across the tree;
on such trees the last-wins id map degenerates to the plain association
list of the pre-order traversal. -/

theorem getAllNodes_eq_of_nodup (root : TaskNode) (hnd : (nodeIds root).Nodup) :
    getAllNodes root = (preList [root]).map (fun n => (n.id, n)) := by
  apply mapOfList_of_nodup
  have : ((preList [root]).map (fun n => (n.id, n))).map Prod.fst = nodeIds root := by
    simp [nodeIds, List.map_map, Function.comp]
  rw [this]
  exact hnd

theorem mapValues_getAllNodes_of_nodup (root : TaskNode) (hnd : (nodeIds root).Nodup) :
    mapValues (getAllNodes root) = preList [root] := by
  rw [getAllNodes_eq_of_nodup root hnd]
  simp only [mapValues, List.map_map]
  have : (Prod.snd ∘ fun n : TaskNode => (n.id, n)) = id := funext (fun n => rfl)
  rw [this, List.map_id]

theorem getNodeDepths_eq_of_nodup (root : TaskNode) (hnd : (nodeIds root).Nodup) :
    getNodeDepths root = (preDepths 0 [root]).map (fun p => (p.1.id, p.2)) := by
  apply mapOfList_of_nodup
  have : ((preDepths 0 [root]).map (fun p => (p.1.id, p.2))).map Prod.fst = nodeIds root := by
    have h1 : ((preDepths 0 [root]).map (fun p => (p.1.id, p.2))).map Prod.fst =
        ((preDepths 0 [root]).map Prod.fst).map TaskNode.id := by
      simp [List.map_map, Function.comp]
    rw [h1, preDepths_map_fst, nodeIds]
  rw [this]
  exact hnd

theorem depthOf_of_mem_preDepths (root : TaskNode) (hnd : (nodeIds root).Nodup)
    (n : TaskNode) (d : ℕ) (hmem : (n, d) ∈ preDepths 0 [root]) :
    depthOf (getNodeDepths root) n.id = d := by
  rw [depthOf, getNodeDepths_eq_of_nodup root hnd]
  have hkeys : (((preDepths 0 [root]).map (fun p => (p.1.id, p.2))).map Prod.fst).Nodup := by
    have h1 : ((preDepths 0 [root]).map (fun p => (p.1.id, p.2))).map Prod.fst =
        ((preDepths 0 [root]).map Prod.fst).map TaskNode.id := by
      simp [List.map_map, Function.comp]
    rw [h1, preDepths_map_fst]
    exact hnd
  rw [mapGet_of_mem_nodup _ n.id d hkeys (List.mem_map.mpr ⟨(n, d), hmem, rfl⟩)]
  rfl

theorem mem_preDepths_of_mem_preList (root : TaskNode) (n : TaskNode)
    (h : n ∈ preList [root]) : ∃ d, (n, d) ∈ preDepths 0 [root] := by
  rw [← preDepths_map_fst 0 [root]] at h
  rcases List.mem_map.mp h with ⟨p, hp, hfst⟩
  exact ⟨p.2, by rwa [← hfst, Prod.mk.eta]⟩

/-! ## Claim C1: hierarchy consistency with no dependency edges -/

theorem edgeDepthPairs_consistent (root : TaskNode) (hnd : (nodeIds root).Nodup)
    (hdep : ∀ n ∈ preList [root], n.dependencies = []) :
    ∀ p ∈ edgeDepthPairs root, p.1 < p.2 := by
  intro p hp
  rw [edgeDepthPairs] at hp
  simp only [List.mem_flatMap] at hp
  rcases hp with ⟨n, hn, hpn⟩
  rw [mapValues_getAllNodes_of_nodup root hnd] at hn
  rw [hdep n hn] at hpn
  simp only [List.filter_nil, List.map_nil, List.append_nil, List.mem_map] at hpn
  rcases hpn with ⟨c, hc, hpc⟩
  rcases mem_preDepths_of_mem_preList root n hn with ⟨d, hd⟩
  have hcd : (c, d + 1) ∈ preDepths 0 [root] := preDepths_children [root] 0 n d hd c hc
  rw [← hpc, depthOf_of_mem_preDepths root hnd n d hd, depthOf_of_mem_preDepths root hnd c (d + 1) hcd]
  omega

/-- Claim C1, amended: the claim's quantifier must exclude trees with duplicate
node ids. On a tree whose node ids are pairwise distinct and in which no node
has dependency edges, `computeHierarchyConsistency` returns score exactly 1.0
(every decomposition edge then satisfies depth(child) = depth(parent) + 1, so
consistentEdges = totalEdges); with duplicate ids the score can drop below 1
(see the counterexample). -/
theorem computeHierarchyConsistency_noDeps (root : TaskNode)
    (hnd : (nodeIds root).Nodup)
    (hdep : ∀ n ∈ preList [root], n.dependencies = []) :
    (computeHierarchyConsistency root).score = 1 := by
  have hall := edgeDepthPairs_consistent root hnd hdep
  have hfil : (edgeDepthPairs root).filter (fun p => p.1 < p.2) = edgeDepthPairs root :=
    List.filter_eq_self.mpr (fun a ha => by simpa using hall a ha)
  rw [computeHierarchyConsistency]
  simp only [hfil]
  by_cases h0 : (edgeDepthPairs root).length = 0
  · simp [h0]
  · rw [if_neg h0]
    exact div_self (by exact_mod_cast h0)

/-- Witness tree for C1: two distinct ids, no dependencies. -/
def c1WitnessTree : TaskNode :=
  .mk "r" "root task" none none none [.mk "c" "child task" none none none [] []] []

/-- Witness for the amended claim C1 at a concrete tree. -/
theorem computeHierarchyConsistency_noDeps_witness :
    (nodeIds c1WitnessTree).Nodup ∧
    (computeHierarchyConsistency c1WitnessTree).score = 1 := by
  have hnd : (nodeIds c1WitnessTree).Nodup := by
    simp [nodeIds, preList, c1WitnessTree, TaskNode.id]
  exact ⟨hnd, computeHierarchyConsistency_noDeps c1WitnessTree hnd
    (by simp [preList, c1WitnessTree, TaskNode.dependencies])⟩

/-- Counterexample tree for C1 as stated: the id "y" occurs twice, once at
depth 2 (as the child of "x") and once at depth 1 (as a child of the root).
No node has any dependency. -/
def c1CounterexampleTree : TaskNode :=
  .mk "r" "r" none none none
    [ .mk "x" "x" none none none [ .mk "y" "y1" none none none [] [] ] []
    , .mk "y" "y2" none none none [] [] ] []

/-- Counterexample to claim C1 as stated: a tree admitted by the data model
(duplicate ids included, as the claim demands) with no dependency edges on
which `computeHierarchyConsistency` returns 2/3, not 1.0: the depth map binds
"y" to the depth of the *last* traversed node with that id, so the
decomposition edge "x" → "y" is counted with depth 1 → depth 1. -/
theorem computeHierarchyConsistency_duplicateId_cex :
    (∀ n ∈ preList [c1CounterexampleTree], n.dependencies = []) ∧
    (computeHierarchyConsistency c1CounterexampleTree).score = 2 / 3 ∧
    (computeHierarchyConsistency c1CounterexampleTree).score ≠ 1 := by
  refine ⟨?_, ?_, ?_⟩
  · simp [preList, c1CounterexampleTree, TaskNode.dependencies]
  · simp [computeHierarchyConsistency, edgeDepthPairs, getAllNodes, getNodeDepths,
      c1CounterexampleTree, preList, preDepths, mapOfList, mapSet, mapGet, mapHas,
      mapValues, mapKeys, depthOf, TaskNode.id, TaskNode.children, TaskNode.dependencies]
  · simp [computeHierarchyConsistency, edgeDepthPairs, getAllNodes, getNodeDepths,
      c1CounterexampleTree, preList, preDepths, mapOfList, mapSet, mapGet, mapHas,
      mapValues, mapKeys, depthOf, TaskNode.id, TaskNode.children, TaskNode.dependencies]
    norm_num

/-! ## Claim C6: hierarchy balance -/

/-- The children counts of the tree's non-leaf nodes, in pre-order; written
from the spec's words (§4.4) for comparison with the map-based sample the
code draws. -/
def nonLeafCounts (root : TaskNode) : List ℕ :=
  ((preList [root]).filter (fun n => 0 < n.children.length)).map
    (fun n => n.children.length)

/-- Population variance (divide by the count, not count − 1), as in §4.4. -/
def popVariance (l : List ℕ) : ℚ :=
  let mean : ℚ := ((l.map (fun c => (c : ℚ))).sum) / (l.length : ℚ)
  ((l.map (fun c => ((c : ℚ) - mean) ^ 2)).sum) / (l.length : ℚ)

/-- Claim C6: on a tree with pairwise-distinct ids (the data model's
invariant), `computeHierarchyBalance` returns 1.0 when fewer than two nodes
have non-empty children, otherwise 1 − min(1, populationVariance / 5) over the
non-leaf children counts; in particular non-leaf child counts [2, 10, 1] give
score exactly 0. -/
theorem computeHierarchyBalance_spec (root : TaskNode) (hnd : (nodeIds root).Nodup) :
    ((nonLeafCounts root).length < 2 → (computeHierarchyBalance root).score = 1) ∧
    (2 ≤ (nonLeafCounts root).length →
      (computeHierarchyBalance root).score = 1 - min 1 (popVariance (nonLeafCounts root) / 5)) ∧
    (nonLeafCounts root = [2, 10, 1] → (computeHierarchyBalance root).score = 0) := by
  have hv : ((mapValues (getAllNodes root)).filter (fun n => 0 < n.children.length)).map
      (fun n => n.children.length) = nonLeafCounts root := by
    rw [mapValues_getAllNodes_of_nodup root hnd]
    rfl
  have hmain : 2 ≤ (nonLeafCounts root).length →
      (computeHierarchyBalance root).score = 1 - min 1 (popVariance (nonLeafCounts root) / 5) := by
    intro hlen
    simp only [computeHierarchyBalance, hv]
    rw [if_neg (by omega)]
    rfl
  refine ⟨?_, hmain, ?_⟩
  · intro hlen
    simp only [computeHierarchyBalance, hv]
    rw [if_pos hlen]
  · intro heq
    rw [hmain (by rw [heq]; norm_num), heq]
    have hpv : popVariance [2, 10, 1] = 146 / 9 := by
      norm_num [popVariance]
    rw [hpv, min_eq_left (by norm_num)]
    norm_num

/-- Witness tree for C6: distinct ids, non-leaf child counts [2, 10, 1]. -/
def c6WitnessTree : TaskNode :=
  .mk "r" "r" none none none
    [ .mk "a" "a" none none none
        [ .mk "a0" "a0" none none none [] [], .mk "a1" "a1" none none none [] []
        , .mk "a2" "a2" none none none [] [], .mk "a3" "a3" none none none [] []
        , .mk "a4" "a4" none none none [] [], .mk "a5" "a5" none none none [] []
        , .mk "a6" "a6" none none none [] [], .mk "a7" "a7" none none none [] []
        , .mk "a8" "a8" none none none [] [], .mk "a9" "a9" none none none [] [] ] []
    , .mk "b" "b" none none none [ .mk "c" "c" none none none [] [] ] [] ] []

/-- Witness for claim C6 at a concrete tree with non-leaf child counts
[2, 10, 1]: the balance score is exactly 0. -/
theorem computeHierarchyBalance_spec_witness :
    (computeHierarchyBalance c6WitnessTree).score = 0 := by
  have hnd : (nodeIds c6WitnessTree).Nodup := by
    simp [nodeIds, preList, c6WitnessTree, TaskNode.id]
  exact (computeHierarchyBalance_spec c6WitnessTree hnd).2.2
    (by simp [nonLeafCounts, preList, c6WitnessTree, TaskNode.children])

/-! ## Claim C2: acyclicity

`computeAcyclicity` builds the merged graph (decomposition edges plus
resolved dependency edges) over the id map and runs a depth-first cycle
detection with a visited set and a recursion stack. -/

/-- The adjacency function `computeAcyclicity` builds: for each key of the id
map, the ids of the value node's children followed by its dependency ids that
resolve in the map; ids outside the map have no outgoing edges. -/
def adjOf (root : TaskNode) : String → List String := fun u =>
  match mapGet (getAllNodes root) u with
  | none => []
  | some n => n.children.map TaskNode.id ++
      n.dependencies.filter (fun d => mapHas (getAllNodes root) d)

/-- The mutable state of the DFS: the `visited` set, the `recursionStack`
set (a set in the source; modelled as the push-ordered list, newest first),
and the `hasCycle` flag. -/
structure DfsState where
  visited : List String
  stack : List String
  cyc : Bool

/-- The recursive `dfs(u)` of `computeAcyclicity`: return at once if the cycle
flag is set; mark `u` visited and push it on the stack; for each neighbour,
recurse if unvisited, flag a cycle if it sits on the stack; finally pop `u`.
`fuel` bounds the recursion depth (the caller passes the number of ids, which
the correctness proof shows is never exhausted; a fuel-0 call returns the
state unchanged). Once the flag is set every remaining source operation
leaves the flag set and the final score depends only on the flag, so the
embedding stops maintaining the stack at that point. -/
def dfsNode (adj : String → List String) : ℕ → String → DfsState → DfsState
  | 0, _, s => s
  | fuel + 1, u, s =>
    if s.cyc then s
    else
      let s1 : DfsState := ⟨u :: s.visited, u :: s.stack, false⟩
      let s2 := (adj u).foldl
        (fun t v =>
          if v ∈ t.visited then
            (if v ∈ t.stack then ⟨t.visited, t.stack, true⟩ else t)
          else dfsNode adj fuel v t) s1
      if s2.cyc then s2 else ⟨s2.visited, s2.stack.erase u, false⟩

/-- The body of the neighbour loop of `dfs`, named for the proofs. -/
def dfsVisit (adj : String → List String) (fuel : ℕ) (t : DfsState) (v : String) : DfsState :=
  if v ∈ t.visited then
    (if v ∈ t.stack then ⟨t.visited, t.stack, true⟩ else t)
  else dfsNode adj fuel v t

theorem dfsNode_succ (adj : String → List String) (fuel : ℕ) (u : String) (s : DfsState) :
    dfsNode adj (fuel + 1) u s =
      if s.cyc then s
      else
        let s1 : DfsState := ⟨u :: s.visited, u :: s.stack, false⟩
        let s2 := (adj u).foldl (dfsVisit adj fuel) s1
        if s2.cyc then s2 else ⟨s2.visited, s2.stack.erase u, false⟩ := rfl

/-- The driver loop of `computeAcyclicity`: for each id in key order, run
`dfs` if the id is unvisited, and stop as soon as the flag is set. -/
def dfsAll (adj : String → List String) (fuel : ℕ) : List String → DfsState → DfsState
  | [], s => s
  | id :: rest, s =>
    let s1 := if id ∈ s.visited then s else dfsNode adj fuel id s
    if s1.cyc then s1 else dfsAll adj fuel rest s1

/-- `computeAcyclicity` from structural.ts (§3.1): binary score — 0.0 if the
DFS finds a cycle in the merged graph, 1.0 otherwise. -/
def computeAcyclicity (root : TaskNode) : EvaluationResult :=
  let nodes := getAllNodes root
  let s := dfsAll (adjOf root) (mapKeys nodes).length (mapKeys nodes) ⟨[], [], false⟩
  ⟨if s.cyc then 0 else 1, some (.acyclicityD s.cyc)⟩

/-- Walks in a graph given by an adjacency function: `isWalk adj u p` says the
vertex sequence `u :: p` follows edges of the graph. -/
def isWalk (adj : String → List String) : String → List String → Prop
  | _, [] => True
  | u, v :: p => v ∈ adj u ∧ isWalk adj v p

/-- The graph contains a cycle: some nonempty walk returns to its start.
This is the specification (§4.2) against which the DFS is verified. -/
def hasCycleProp (adj : String → List String) : Prop :=
  ∃ u p, p ≠ [] ∧ isWalk adj u p ∧ p.getLast? = some u

/-! ### A rank function rules cycles out -/

theorem isWalk_rank (adj : String → List String) (f : String → ℕ)
    (hf : ∀ u v, v ∈ adj u → f v < f u) :
    ∀ p u w, isWalk adj u p → p.getLast? = some w → f w < f u := by
  intro p
  induction p with
  | nil => intro u w _ hl; simp at hl
  | cons v rest ih =>
    intro u w hw hl
    rcases hw with ⟨hedge, hrest⟩
    cases rest with
    | nil =>
      have hv : v = w := by simpa using hl
      subst hv
      exact hf u v hedge
    | cons a b =>
      have hl' : (a :: b).getLast? = some w := by
        rw [List.getLast?_cons_cons] at hl
        exact hl
      exact (ih v w hrest hl').trans (hf u v hedge)

theorem not_hasCycleProp_of_rank (adj : String → List String) (f : String → ℕ)
    (hf : ∀ u v, v ∈ adj u → f v < f u) : ¬ hasCycleProp adj := by
  rintro ⟨u, p, hne, hw, hl⟩
  exact lt_irrefl (f u) (isWalk_rank adj f hf p u u hw hl)

/-! ### From the recursion stack to a cycle witness -/

theorem isWalk_append (adj : String → List String) :
    ∀ (p₁ p₂ : List String) (u : String),
    isWalk adj u (p₁ ++ p₂) ↔ isWalk adj u p₁ ∧ isWalk adj (p₁.getLastD u) p₂ := by
  intro p₁
  induction p₁ with
  | nil => intro p₂ u; simp [isWalk]
  | cons v rest ih =>
    intro p₂ u
    simp only [List.cons_append, isWalk, List.getLastD_cons, List.append_eq, ih p₂ v]
    tauto

/-- Walking up a chained stack: if `P ++ [v]` is linked by `a ∈ adj b` between
consecutive elements (newest first), there is a walk from `v` through
`P.reverse`. -/
theorem walk_up_chain (adj : String → List String) :
    ∀ (P : List String) (v : String),
    List.Chain' (fun a b => a ∈ adj b) (P ++ [v]) → isWalk adj v P.reverse := by
  intro P
  induction P with
  | nil => intro v _; exact trivial
  | cons a P' ih =>
    intro v hch
    rcases List.chain'_cons'.mp hch with ⟨hhead, htail⟩
    have hwalk' : isWalk adj v P'.reverse := ih v htail
    rw [List.reverse_cons, isWalk_append adj P'.reverse [a] v]
    refine ⟨hwalk', ?_, trivial⟩
    cases hP : P' with
    | nil =>
      subst hP
      have hav : a ∈ adj v := hhead v rfl
      simpa using hav
    | cons b P'' =>
      subst hP
      have hab : a ∈ adj b := hhead b rfl
      have hlast : (b :: P'').reverse.getLastD v = b := by
        simp [List.getLastD_eq_getLast?]
      rw [hlast]
      exact hab

/-- A detected back edge closes a cycle: if the stack is chained, its head is
`u`, `v` is on the stack, and `u → v` is an edge, the graph has a cycle. -/
theorem hasCycleProp_of_stack_hit (adj : String → List String)
    (u v : String) (rest : List String)
    (hch : List.Chain' (fun a b => a ∈ adj b) (u :: rest))
    (hmem : v ∈ u :: rest) (hedge : v ∈ adj u) : hasCycleProp adj := by
  rcases List.append_of_mem hmem with ⟨P, S, hsplit⟩
  have hchPS : List.Chain' (fun a b => a ∈ adj b) (P ++ [v]) := by
    have hpre : (P ++ [v]) <+: (u :: rest) := by
      rw [hsplit]
      exact ⟨S, by simp⟩
    exact List.Chain'.prefix hch hpre
  have hwalk : isWalk adj v P.reverse := walk_up_chain adj P v hchPS
  refine ⟨v, P.reverse ++ [v], by simp, ?_, by simp⟩
  rw [isWalk_append adj P.reverse [v] v]
  refine ⟨hwalk, ?_, trivial⟩
  cases hP : P with
  | nil =>
    subst hP
    have huv : u = v := by
      have := congrArg List.head? hsplit
      simpa using this
    subst huv
    simp only [List.reverse_nil, List.getLastD_nil]
    exact hedge
  | cons a P' =>
    subst hP
    have hua : u = a := by
      have := congrArg List.head? hsplit
      simpa using this
    have hlast : (a :: P').reverse.getLastD v = a := by
      simp [List.getLastD_eq_getLast?]
    rw [hlast, ← hua]
    exact hedge

/-! ### Soundness: a raised flag really means a cycle -/

theorem dfsNode_cyc_absorb (adj : String → List String) (fuel : ℕ) (u : String) (s : DfsState)
    (h : s.cyc = true) : dfsNode adj fuel u s = s := by
  cases fuel <;> simp [dfsNode, h]

theorem dfsVisit_cyc_absorb (adj : String → List String) (fuel : ℕ) (s : DfsState) (v : String)
    (h : s.cyc = true) : dfsVisit adj fuel s v = s := by
  rcases s with ⟨vis, st, c⟩
  have h' : c = true := h
  subst h'
  unfold dfsVisit
  by_cases h1 : v ∈ vis
  · by_cases h2 : v ∈ st <;> simp [h1, h2]
  · simp [h1, dfsNode_cyc_absorb adj fuel v ⟨vis, st, true⟩ rfl]

theorem foldl_dfsVisit_cyc_absorb (adj : String → List String) (fuel : ℕ) (L : List String)
    (s : DfsState) (h : s.cyc = true) : L.foldl (dfsVisit adj fuel) s = s := by
  induction L with
  | nil => rfl
  | cons v L ih => rw [List.foldl_cons, dfsVisit_cyc_absorb adj fuel s v h]; exact ih

theorem dfsNode_sound (adj : String → List String) :
    ∀ (fuel : ℕ) (u : String) (s : DfsState), s.cyc = false →
    List.Chain' (fun a b => a ∈ adj b) (u :: s.stack) →
    (∀ x ∈ s.stack, x ∈ s.visited) →
    (∀ x ∈ s.visited, x ∈ (dfsNode adj fuel u s).visited) ∧
    ((dfsNode adj fuel u s).cyc = false → (dfsNode adj fuel u s).stack = s.stack) ∧
    ((dfsNode adj fuel u s).cyc = true → hasCycleProp adj) := by
  intro fuel
  induction fuel with
  | zero =>
    intro u s hc _ _
    refine ⟨fun x hx => hx, fun _ => rfl, fun hcy => ?_⟩
    rw [show dfsNode adj 0 u s = s from rfl, hc] at hcy
    cases hcy
  | succ fuel ih =>
    intro u s hc hch hsv
    have hfold : ∀ (L : List String) (t : DfsState) (rest : List String),
        t.cyc = false → t.stack = u :: rest →
        List.Chain' (fun a b => a ∈ adj b) t.stack →
        (∀ x ∈ t.stack, x ∈ t.visited) →
        (∀ v ∈ L, v ∈ adj u) →
        (∀ x ∈ t.visited, x ∈ (L.foldl (dfsVisit adj fuel) t).visited) ∧
        ((L.foldl (dfsVisit adj fuel) t).cyc = false →
            (L.foldl (dfsVisit adj fuel) t).stack = t.stack) ∧
        ((L.foldl (dfsVisit adj fuel) t).cyc = true → hasCycleProp adj) := by
      intro L
      induction L with
      | nil =>
        intro t rest hc1 _ _ _ _
        refine ⟨fun x hx => hx, fun _ => rfl, fun hcy => ?_⟩
        rw [show ([] : List String).foldl (dfsVisit adj fuel) t = t from rfl, hc1] at hcy
        cases hcy
      | cons v L ihL =>
        intro t rest hc1 hst hch1 hsv1 hLadj
        rw [List.foldl_cons]
        by_cases hv : v ∈ t.visited
        · by_cases hvs : v ∈ t.stack
          · have hstep : dfsVisit adj fuel t v = ⟨t.visited, t.stack, true⟩ := by
              simp [dfsVisit, hv, hvs]
            rw [hstep, foldl_dfsVisit_cyc_absorb adj fuel L _ rfl]
            refine ⟨fun x hx => hx, ?_, ?_⟩
            · intro hcy
              simp at hcy
            · intro _
              rw [hst] at hch1 hvs
              exact hasCycleProp_of_stack_hit adj u v rest hch1 hvs (hLadj v (.head _))
          · have hstep : dfsVisit adj fuel t v = t := by simp [dfsVisit, hv, hvs]
            rw [hstep]
            exact ihL t rest hc1 hst hch1 hsv1 (fun w hw => hLadj w (.tail _ hw))
        · have hstep : dfsVisit adj fuel t v = dfsNode adj fuel v t := by
            simp [dfsVisit, hv]
          rw [hstep]
          have hchv : List.Chain' (fun a b => a ∈ adj b) (v :: t.stack) := by
            refine List.chain'_cons'.mpr ⟨?_, hch1⟩
            intro y hy
            rw [hst] at hy
            have hyu : u = y := by simpa using hy
            subst hyu
            exact hLadj v (.head _)
          have hnode := ih v t hc1 hchv hsv1
          rcases hcy1 : (dfsNode adj fuel v t).cyc with _ | _
          · have hstack1 : (dfsNode adj fuel v t).stack = t.stack := hnode.2.1 hcy1
            have hrest := ihL (dfsNode adj fuel v t) rest hcy1 (hstack1.trans hst)
              (hstack1 ▸ hch1) (fun x hx => hnode.1 x (hsv1 x (hstack1 ▸ hx)))
              (fun w hw => hLadj w (.tail _ hw))
            refine ⟨fun x hx => hrest.1 x (hnode.1 x hx), ?_, hrest.2.2⟩
            intro hcyf
            rw [hrest.2.1 hcyf, hstack1]
          · rw [foldl_dfsVisit_cyc_absorb adj fuel L _ hcy1]
            refine ⟨hnode.1, ?_, fun _ => hnode.2.2 hcy1⟩
            intro hcyf
            rw [hcy1] at hcyf
            exact Bool.noConfusion hcyf
    rw [dfsNode_succ]
    simp only [hc, Bool.false_eq_true, if_false]
    have hres := hfold (adj u) ⟨u :: s.visited, u :: s.stack, false⟩ s.stack rfl rfl
      (by simpa using hch)
      (by
        intro x hx
        rcases List.mem_cons.mp hx with rfl | hx'
        · exact .head _
        · exact .tail _ (hsv x hx'))
      (fun v hv => hv)
    split
    next hcy2 =>
      refine ⟨fun x hx => hres.1 x (.tail _ hx), ?_, fun _ => hres.2.2 hcy2⟩
      intro hcyf
      rw [hcy2] at hcyf
      exact Bool.noConfusion hcyf
    next hcy2 =>
      have hb : (List.foldl (dfsVisit adj fuel)
          ⟨u :: s.visited, u :: s.stack, false⟩ (adj u)).cyc = false :=
        Bool.eq_false_iff.mpr hcy2
      have hstack2 := hres.2.1 hb
      refine ⟨fun x hx => hres.1 x (.tail _ hx), fun _ => ?_, fun hcy => Bool.noConfusion hcy⟩
      show (List.foldl (dfsVisit adj fuel)
          ⟨u :: s.visited, u :: s.stack, false⟩ (adj u)).stack.erase u = s.stack
      rw [hstack2]
      exact List.erase_cons_head u s.stack

theorem dfsAll_sound (adj : String → List String) (fuel : ℕ) :
    ∀ (ids : List String) (s : DfsState), s.cyc = false → s.stack = [] →
    ((dfsAll adj fuel ids s).cyc = true → hasCycleProp adj) := by
  intro ids
  induction ids with
  | nil =>
    intro s hc _ hcy
    rw [show dfsAll adj fuel [] s = s from rfl, hc] at hcy
    cases hcy
  | cons id rest ih =>
    intro s hc hst hcy
    rw [dfsAll] at hcy
    by_cases hv : id ∈ s.visited
    · simp only [hv, if_true, hc, Bool.false_eq_true, if_false] at hcy
      exact ih s hc hst hcy
    · simp only [hv, if_false] at hcy
      have hnode := dfsNode_sound adj fuel id s hc
        (by rw [hst]; exact List.chain'_singleton id)
        (by rw [hst]; intro x hx; cases hx)
      rcases hcy1 : (dfsNode adj fuel id s).cyc with _ | _
      · rw [if_neg (by rw [hcy1]; exact Bool.false_ne_true)] at hcy
        exact ih (dfsNode adj fuel id s) hcy1 ((hnode.2.1 hcy1).trans hst) hcy
      · exact hnode.2.2 hcy1

/-! ### Completeness: no cycle is missed

The invariant: off-stack visited ("black") nodes only point at black nodes,
along a strictly decreasing rank. When the DFS terminates without raising the
flag every id is black, so the rank function orders the whole graph and no
cycle can exist. -/

/-- A node is black: visited and off the recursion stack. -/
def IsBlack (s : DfsState) (x : String) : Prop := x ∈ s.visited ∧ x ∉ s.stack

/-- The rank invariant of the DFS. -/
def RankInv (adj : String → List String) (s : DfsState) : Prop :=
  ∃ f : String → ℕ, ∀ x, IsBlack s x → ∀ v ∈ adj x, IsBlack s v ∧ f v < f x

/-- Number of elements of a list not in `vis`; the fuel measure of the DFS. -/
def countNotMem (vis : List String) : List String → ℕ
  | [] => 0
  | a :: t => (if a ∈ vis then 0 else 1) + countNotMem vis t

/-- Number of ids not yet visited. -/
def unvisitedCount (ids : List String) (s : DfsState) : ℕ :=
  countNotMem s.visited ids

theorem countNotMem_mono (vis vis' : List String) (h : ∀ x ∈ vis, x ∈ vis') :
    ∀ l : List String, countNotMem vis' l ≤ countNotMem vis l := by
  intro l
  induction l with
  | nil => exact le_refl _
  | cons a t ih =>
    unfold countNotMem
    by_cases ha' : a ∈ vis'
    · by_cases ha : a ∈ vis <;> simp only [ha, ha', if_true, if_false] <;> omega
    · have ha : a ∉ vis := fun hm => ha' (h a hm)
      simp only [ha, ha', if_false]
      omega

theorem unvisitedCount_le_of_subset (ids : List String) (s s' : DfsState)
    (h : ∀ x ∈ s.visited, x ∈ s'.visited) :
    unvisitedCount ids s' ≤ unvisitedCount ids s :=
  countNotMem_mono s.visited s'.visited h ids

theorem unvisitedCount_pos (ids : List String) (s : DfsState) (u : String)
    (hu : u ∈ ids) (hnv : u ∉ s.visited) : 0 < unvisitedCount ids s := by
  unfold unvisitedCount
  induction ids with
  | nil => cases hu
  | cons a t ih =>
    unfold countNotMem
    rcases List.mem_cons.mp hu with rfl | hut
    · simp only [hnv, if_false]
      omega
    · have := ih hut
      omega

theorem countNotMem_cons_lt (vis : List String) (u : String) (hnv : u ∉ vis) :
    ∀ l : List String, u ∈ l → countNotMem (u :: vis) l < countNotMem vis l := by
  intro l
  induction l with
  | nil => intro h; cases h
  | cons a t ih =>
    intro hu
    unfold countNotMem
    have htail : countNotMem (u :: vis) t ≤ countNotMem vis t :=
      countNotMem_mono vis (u :: vis) (fun x hx => .tail _ hx) t
    by_cases hau : a = u
    · subst hau
      simp only [List.mem_cons, true_or, if_true, hnv, if_false]
      omega
    · have hut : u ∈ t := by
        rcases List.mem_cons.mp hu with h | h
        · exact absurd h.symm hau
        · exact h
      have hlt := ih hut
      have hiff : (a ∈ u :: vis) ↔ a ∈ vis := by
        simp only [List.mem_cons]
        exact ⟨fun h => h.elim (fun he => absurd he hau) id, Or.inr⟩
      by_cases ha : a ∈ vis
      · simp only [ha, hiff.mpr ha, if_true]
        omega
      · have hnm : a ∉ u :: vis := fun hm => ha (hiff.mp hm)
        simp only [ha, hnm, if_false]
        omega

theorem unvisitedCount_push (ids : List String) (s : DfsState) (u : String)
    (hu : u ∈ ids) (hnv : u ∉ s.visited) (st' : List String) (c' : Bool) :
    unvisitedCount ids ⟨u :: s.visited, st', c'⟩ < unvisitedCount ids s :=
  countNotMem_cons_lt s.visited u hnv ids hu

theorem le_foldr_max (l : List ℕ) : ∀ x ∈ l, x ≤ l.foldr max 0 := by
  induction l with
  | nil => intro x hx; cases hx
  | cons a t ih =>
    intro x hx
    rcases List.mem_cons.mp hx with rfl | hx'
    · exact le_max_left _ _
    · exact (ih x hx').trans (le_max_right _ _)

theorem isBlack_push_iff (s : DfsState) (u : String) (hu : u ∉ s.visited)
    (c' : Bool) (x : String) :
    IsBlack ⟨u :: s.visited, u :: s.stack, c'⟩ x ↔ IsBlack s x := by
  unfold IsBlack
  simp only [List.mem_cons, not_or]
  constructor
  · rintro ⟨h1 | h1, h2, h3⟩
    · exact absurd h1 h2
    · exact ⟨h1, h3⟩
  · rintro ⟨h1, h2⟩
    have hxu : x ≠ u := fun he => hu (he ▸ h1)
    exact ⟨Or.inr h1, hxu, h2⟩

theorem rankInv_push (adj : String → List String) (s : DfsState) (u : String)
    (hu : u ∉ s.visited) (c' : Bool) (h : RankInv adj s) :
    RankInv adj ⟨u :: s.visited, u :: s.stack, c'⟩ := by
  rcases h with ⟨f, hf⟩
  refine ⟨f, fun x hx v hv => ?_⟩
  rw [isBlack_push_iff s u hu c'] at hx
  rcases hf x hx v hv with ⟨hb, hr⟩
  exact ⟨(isBlack_push_iff s u hu c' v).mpr hb, hr⟩

theorem dfsNode_complete (adj : String → List String) (ids : List String)
    (hadj : ∀ x v, v ∈ adj x → v ∈ ids) :
    ∀ (fuel : ℕ) (u : String) (s : DfsState), s.cyc = false →
    u ∈ ids → u ∉ s.visited →
    (∀ x ∈ s.visited, x ∈ ids) →
    (∀ x ∈ s.stack, x ∈ s.visited) →
    List.Chain' (fun a b => a ∈ adj b) (u :: s.stack) →
    RankInv adj s →
    unvisitedCount ids s ≤ fuel →
    (dfsNode adj fuel u s).cyc = false →
    (∀ x ∈ s.visited, x ∈ (dfsNode adj fuel u s).visited) ∧
    (∀ x ∈ (dfsNode adj fuel u s).visited, x ∈ ids) ∧
    RankInv adj (dfsNode adj fuel u s) ∧
    IsBlack (dfsNode adj fuel u s) u ∧
    (dfsNode adj fuel u s).stack = s.stack := by
  intro fuel
  induction fuel with
  | zero =>
    intro u s _ hu hnv _ _ _ _ hcount _
    exact absurd hcount (by
      have := unvisitedCount_pos ids s u hu hnv
      omega)
  | succ fuel ih =>
    intro u s hc hu hnv hvid hsv hch hrk hcount hcyf
    have hfoldB : ∀ (L : List String) (t : DfsState) (rest : List String),
        t.cyc = false → t.stack = u :: rest →
        List.Chain' (fun a b => a ∈ adj b) t.stack →
        (∀ x ∈ t.stack, x ∈ t.visited) →
        (∀ v ∈ L, v ∈ adj u) →
        (∀ x ∈ t.visited, x ∈ ids) →
        RankInv adj t →
        unvisitedCount ids t ≤ fuel →
        (L.foldl (dfsVisit adj fuel) t).cyc = false →
        (∀ x ∈ t.visited, x ∈ (L.foldl (dfsVisit adj fuel) t).visited) ∧
        (∀ x ∈ (L.foldl (dfsVisit adj fuel) t).visited, x ∈ ids) ∧
        RankInv adj (L.foldl (dfsVisit adj fuel) t) ∧
        (∀ v ∈ L, v ∈ (L.foldl (dfsVisit adj fuel) t).visited ∧
            v ∉ (L.foldl (dfsVisit adj fuel) t).stack) ∧
        (L.foldl (dfsVisit adj fuel) t).stack = t.stack ∧
        unvisitedCount ids (L.foldl (dfsVisit adj fuel) t) ≤ unvisitedCount ids t := by
      intro L
      induction L with
      | nil =>
        intro t rest hc1 _ _ _ _ hvid1 hrk1 _ _
        exact ⟨fun x hx => hx, hvid1, hrk1, fun v hv => absurd hv (List.not_mem_nil v),
          rfl, le_refl _⟩
      | cons v L ihL =>
        intro t rest hc1 hst hch1 hsv1 hLadj hvid1 hrk1 hcount1 hcyf1
        rw [List.foldl_cons] at hcyf1 ⊢
        by_cases hvv : v ∈ t.visited
        · by_cases hvs : v ∈ t.stack
          · exfalso
            have hstep : dfsVisit adj fuel t v = ⟨t.visited, t.stack, true⟩ := by
              simp [dfsVisit, hvv, hvs]
            rw [hstep, foldl_dfsVisit_cyc_absorb adj fuel L _ rfl] at hcyf1
            exact Bool.noConfusion hcyf1
          · have hstep : dfsVisit adj fuel t v = t := by simp [dfsVisit, hvv, hvs]
            rw [hstep] at hcyf1 ⊢
            have hres := ihL t rest hc1 hst hch1 hsv1
              (fun w hw => hLadj w (.tail _ hw)) hvid1 hrk1 hcount1 hcyf1
            refine ⟨hres.1, hres.2.1, hres.2.2.1, ?_, hres.2.2.2.2⟩
            intro w hw
            rcases List.mem_cons.mp hw with rfl | hw'
            · exact ⟨hres.1 w hvv, by rw [hres.2.2.2.2.1]; exact hvs⟩
            · exact hres.2.2.2.1 w hw'
        · have hstep : dfsVisit adj fuel t v = dfsNode adj fuel v t := by
            simp [dfsVisit, hvv]
          rw [hstep] at hcyf1 ⊢
          have hvin : v ∈ ids := hadj u v (hLadj v (.head _))
          have hchv : List.Chain' (fun a b => a ∈ adj b) (v :: t.stack) := by
            refine List.chain'_cons'.mpr ⟨?_, hch1⟩
            intro y hy
            rw [hst] at hy
            have hyu : u = y := by simpa using hy
            subst hyu
            exact hLadj v (.head _)
          have hcy2 : (dfsNode adj fuel v t).cyc = false := by
            rcases hb : (dfsNode adj fuel v t).cyc with _ | _
            · rfl
            · rw [foldl_dfsVisit_cyc_absorb adj fuel L _ hb] at hcyf1
              exact absurd hcyf1 (by rw [hb]; exact fun h => Bool.noConfusion h)
          have hnode := ih v t hc1 hvin hvv hvid1 hsv1 hchv hrk1 hcount1 hcy2
          rcases hnode with ⟨hmono, hvid2, hrk2, hblackv, hstack2⟩
          have hcount2 : unvisitedCount ids (dfsNode adj fuel v t) ≤ unvisitedCount ids t :=
            unvisitedCount_le_of_subset ids t _ hmono
          have hres := ihL (dfsNode adj fuel v t) rest hcy2 (hstack2.trans hst)
            (hstack2 ▸ hch1) (fun x hx => hmono x (hsv1 x (hstack2 ▸ hx)))
            (fun w hw => hLadj w (.tail _ hw)) hvid2 hrk2
            (hcount2.trans hcount1) hcyf1
          refine ⟨fun x hx => hres.1 x (hmono x hx), hres.2.1, hres.2.2.1, ?_,
            hres.2.2.2.2.1.trans hstack2, hres.2.2.2.2.2.trans hcount2⟩
          intro w hw
          rcases List.mem_cons.mp hw with rfl | hw'
          · refine ⟨hres.1 w hblackv.1, ?_⟩
            rw [hres.2.2.2.2.1]
            exact hblackv.2
          · exact hres.2.2.2.1 w hw'
    rw [dfsNode_succ] at hcyf ⊢
    simp only [hc, Bool.false_eq_true, if_false] at hcyf ⊢
    have hcyS2 : (List.foldl (dfsVisit adj fuel)
        ⟨u :: s.visited, u :: s.stack, false⟩ (adj u)).cyc = false := by
      rcases hb : (List.foldl (dfsVisit adj fuel)
          ⟨u :: s.visited, u :: s.stack, false⟩ (adj u)).cyc with _ | _
      · rfl
      · rw [if_pos hb] at hcyf
        exact absurd hcyf (by rw [hb]; exact fun h => Bool.noConfusion h)
    have hres := hfoldB (adj u) ⟨u :: s.visited, u :: s.stack, false⟩ s.stack rfl rfl
      (by simpa using hch)
      (by
        intro x hx
        rcases List.mem_cons.mp hx with rfl | hx'
        · exact .head _
        · exact .tail _ (hsv x hx'))
      (fun w hw => hw)
      (by
        intro x hx
        rcases List.mem_cons.mp hx with rfl | hx'
        · exact hu
        · exact hvid x hx')
      (rankInv_push adj s u hnv false hrk)
      (by
        have := unvisitedCount_push ids s u hu hnv (u :: s.stack) false
        omega)
      hcyS2
    rcases hres with ⟨hmono2, hvid2, hrk2, hblackL, hstack2, _⟩
    rw [if_neg (by rw [hcyS2]; exact fun h => Bool.noConfusion h)] at hcyf ⊢
    have husk : u ∉ s.stack := fun hm => hnv (hsv u hm)
    refine ⟨fun x hx => hmono2 x (.tail _ hx), hvid2, ?_, ?_, ?_⟩
    · -- rank invariant after popping u
      rcases hrk2 with ⟨f, hf⟩
      set S2 := List.foldl (dfsVisit adj fuel) ⟨u :: s.visited, u :: s.stack, false⟩ (adj u)
        with hS2def
      have hblackiff : ∀ x, IsBlack ⟨S2.visited, S2.stack.erase u, false⟩ x ↔
          (x = u ∨ IsBlack S2 x) := by
        intro x
        rw [hstack2]
        unfold IsBlack
        simp only [List.erase_cons_head]
        constructor
        · rintro ⟨h1, h2⟩
          by_cases hxu : x = u
          · exact Or.inl hxu
          · refine Or.inr ⟨h1, ?_⟩
            rw [hstack2]
            simp only [List.mem_cons, not_or]
            exact ⟨hxu, h2⟩
        · rintro (rfl | ⟨h1, h2⟩)
          · exact ⟨hmono2 x (.head _), husk⟩
          · rw [hstack2] at h2
            simp only [List.mem_cons, not_or] at h2
            exact ⟨h1, h2.2⟩
      refine ⟨fun x => if x = u then ((adj u).map f).foldr max 0 + 1 else f x, ?_⟩
      intro x hx v hv
      rcases (hblackiff x).mp hx with hxu | hbx
      · -- x = u: every neighbour is black with smaller rank
        subst x
        have hvB := hblackL v hv
        have hvne : v ≠ u := by
          intro he
          exact hvB.2 (by rw [hstack2, he]; exact .head _)
        have hvblackS2 : IsBlack S2 v := ⟨hvB.1, hvB.2⟩
        refine ⟨(hblackiff v).mpr (Or.inr hvblackS2), ?_⟩
        show (if v = u then ((adj u).map f).foldr max 0 + 1 else f v) <
          (if u = u then ((adj u).map f).foldr max 0 + 1 else f u)
        rw [if_neg hvne, if_pos rfl]
        have : f v ≤ ((adj u).map f).foldr max 0 :=
          le_foldr_max _ (f v) (List.mem_map.mpr ⟨v, hv, rfl⟩)
        omega
      · rcases hf x hbx v hv with ⟨hvb, hvr⟩
        have hvne : v ≠ u := by
          intro he
          subst he
          exact hvb.2 (by rw [hstack2]; exact .head _)
        have hxne : x ≠ u := by
          intro he
          subst he
          exact hbx.2 (by rw [hstack2]; exact .head _)
        refine ⟨(hblackiff v).mpr (Or.inr hvb), ?_⟩
        show (if v = u then ((adj u).map f).foldr max 0 + 1 else f v) <
          (if x = u then ((adj u).map f).foldr max 0 + 1 else f x)
        rw [if_neg hvne, if_neg hxne]
        exact hvr
    · -- u is black in the result
      constructor
      · exact hmono2 u (.head _)
      · rw [hstack2]
        simp only [List.erase_cons_head]
        exact husk
    · rw [hstack2]
      exact List.erase_cons_head u s.stack

theorem dfsAll_complete (adj : String → List String) (ids0 : List String)
    (hadj : ∀ x v, v ∈ adj x → v ∈ ids0) (fuel : ℕ) :
    ∀ (ids : List String) (s : DfsState), s.cyc = false → s.stack = [] →
    (∀ x ∈ s.visited, x ∈ ids0) → RankInv adj s →
    unvisitedCount ids0 s ≤ fuel →
    (∀ id ∈ ids, id ∈ ids0) →
    (dfsAll adj fuel ids s).cyc = false →
    RankInv adj (dfsAll adj fuel ids s) ∧
    (dfsAll adj fuel ids s).stack = [] ∧
    (∀ x ∈ s.visited, x ∈ (dfsAll adj fuel ids s).visited) ∧
    (∀ id ∈ ids, IsBlack (dfsAll adj fuel ids s) id) := by
  intro ids
  induction ids with
  | nil =>
    intro s hc hst hvid hrk _ _ _
    exact ⟨hrk, hst, fun x hx => hx, fun id h => absurd h (List.not_mem_nil id)⟩
  | cons id rest ih =>
    intro s hc hst hvid hrk hcount hsub hcyf
    rw [dfsAll] at hcyf ⊢
    by_cases hv : id ∈ s.visited
    · simp only [hv, if_true, hc, Bool.false_eq_true, if_false] at hcyf ⊢
      have hres := ih s hc hst hvid hrk hcount (fun x hx => hsub x (.tail _ hx)) hcyf
      refine ⟨hres.1, hres.2.1, hres.2.2.1, ?_⟩
      intro w hw
      rcases List.mem_cons.mp hw with rfl | hw'
      · exact ⟨hres.2.2.1 w hv, by rw [hres.2.1]; exact List.not_mem_nil w⟩
      · exact hres.2.2.2 w hw'
    · simp only [hv, if_false] at hcyf ⊢
      have hcy1 : (dfsNode adj fuel id s).cyc = false := by
        rcases hb : (dfsNode adj fuel id s).cyc with _ | _
        · rfl
        · rw [if_pos hb] at hcyf
          exact absurd hcyf (by rw [hb]; exact fun h => Bool.noConfusion h)
      rw [if_neg (by rw [hcy1]; exact fun h => Bool.noConfusion h)] at hcyf ⊢
      have hnode := dfsNode_complete adj ids0 hadj fuel id s hc (hsub id (.head _)) hv hvid
        (by rw [hst]; intro x hx; cases hx)
        (by rw [hst]; exact List.chain'_singleton id)
        hrk hcount hcy1
      rcases hnode with ⟨hmono, hvid2, hrk2, hblack, hstack2⟩
      have hres := ih (dfsNode adj fuel id s) hcy1 (hstack2.trans hst) hvid2 hrk2
        ((unvisitedCount_le_of_subset ids0 s _ hmono).trans hcount)
        (fun x hx => hsub x (.tail _ hx)) hcyf
      refine ⟨hres.1, hres.2.1, fun x hx => hres.2.2.1 x (hmono x hx), ?_⟩
      intro w hw
      rcases List.mem_cons.mp hw with rfl | hw'
      · exact ⟨hres.2.2.1 w hblack.1, by rw [hres.2.1]; exact List.not_mem_nil w⟩
      · exact hres.2.2.2 w hw'

/-! ### The merged graph stays inside the id map -/

theorem mem_mapKeys_mapSet {α : Type} (m : JsMap α) (k q : String) (v : α) :
    q ∈ mapKeys (mapSet m k v) ↔ q ∈ mapKeys m ∨ q = k := by
  rw [mapKeys_mapSet]
  by_cases h : k ∈ mapKeys m
  · rw [if_pos h]
    constructor
    · exact Or.inl
    · rintro (hq | rfl)
      · exact hq
      · exact h
  · rw [if_neg h]
    simp

theorem mem_keys_mapOfList {α : Type} (l : List (String × α)) (k : String) :
    k ∈ mapKeys (mapOfList l) ↔ k ∈ l.map Prod.fst := by
  have hgen : ∀ m : JsMap α,
      k ∈ mapKeys (l.foldl (fun m p => mapSet m p.1 p.2) m) ↔
        k ∈ mapKeys m ∨ k ∈ l.map Prod.fst := by
    induction l with
    | nil => intro m; simp
    | cons p rest ih =>
      intro m
      rw [List.foldl_cons, ih (mapSet m p.1 p.2), mem_mapKeys_mapSet]
      simp only [List.map_cons, List.mem_cons]
      tauto
  have := hgen []
  simpa [mapOfList, mapKeys] using this

theorem mapValues_mapSet_subset {α : Type} (m : JsMap α) (k : String) (v : α) :
    ∀ w ∈ mapValues (mapSet m k v), w ∈ mapValues m ∨ w = v := by
  intro w hw
  unfold mapSet at hw
  by_cases h : mapHas m k
  · rw [if_pos h] at hw
    unfold mapValues at hw
    rw [List.map_map] at hw
    rcases List.mem_map.mp hw with ⟨p, hp, hpe⟩
    by_cases hk : p.1 = k
    · right
      rw [← hpe]
      simp [hk]
    · left
      rw [← hpe]
      simp only [Function.comp_apply, hk, if_false]
      exact List.mem_map.mpr ⟨p, hp, rfl⟩
  · rw [if_neg h] at hw
    unfold mapValues at hw
    rw [List.map_append] at hw
    rcases List.mem_append.mp hw with h1 | h1
    · exact Or.inl h1
    · right
      simpa using h1

theorem mapValues_mapOfList_subset {α : Type} (l : List (String × α)) :
    ∀ w ∈ mapValues (mapOfList l), w ∈ l.map Prod.snd := by
  have hgen : ∀ (m : JsMap α) (w : α),
      w ∈ mapValues (l.foldl (fun m p => mapSet m p.1 p.2) m) →
        w ∈ mapValues m ∨ w ∈ l.map Prod.snd := by
    induction l with
    | nil => intro m w hw; exact Or.inl hw
    | cons p rest ih =>
      intro m w hw
      rw [List.foldl_cons] at hw
      rcases ih (mapSet m p.1 p.2) w hw with h1 | h1
      · rcases mapValues_mapSet_subset m p.1 p.2 w h1 with h2 | h2
        · exact Or.inl h2
        · right
          simp [h2]
      · right
        simp only [List.map_cons, List.mem_cons]
        exact Or.inr h1
  intro w hw
  rcases hgen [] w hw with h1 | h1
  · cases h1
  · exact h1

theorem mapGet_mem_values {α : Type} :
    ∀ (m : JsMap α) (k : String) (v : α), mapGet m k = some v → v ∈ mapValues m := by
  intro m
  induction m with
  | nil => intro k v h; cases h
  | cons p rest ih =>
    intro k v h
    unfold mapGet at h
    unfold mapValues
    rw [List.map_cons]
    by_cases hp : p.1 = k
    · rw [if_pos hp] at h
      cases Option.some.inj h
      exact .head _
    · rw [if_neg hp] at h
      exact .tail _ (show v ∈ rest.map Prod.snd from ih k v h)

theorem preList_children_mem :
    ∀ (l : List TaskNode) (n : TaskNode), n ∈ preList l → ∀ c ∈ n.children, c ∈ preList l := by
  intro l
  induction l using preList.induct with
  | case1 => intro n h; simp [preList] at h
  | case2 i t de p e cs deps rest ih1 ih2 =>
    intro n hn c hc
    simp only [preList, List.mem_cons, List.mem_append] at hn ⊢
    rcases hn with rfl | hn | hn
    · exact Or.inr (Or.inl (self_mem_preList cs c hc))
    · exact Or.inr (Or.inl (ih1 n hn c hc))
    · exact Or.inr (Or.inr (ih2 n hn c hc))

theorem pairs_map_fst (l : List TaskNode) :
    (l.map (fun n => (n.id, n))).map Prod.fst = l.map TaskNode.id := by
  rw [List.map_map]
  rfl

theorem pairs_map_snd (l : List TaskNode) :
    (l.map (fun n => (n.id, n))).map Prod.snd = l := by
  rw [List.map_map]
  have : (Prod.snd ∘ fun n : TaskNode => (n.id, n)) = id := funext (fun n => rfl)
  rw [this, List.map_id]

theorem getAllNodes_values_sub_preList (root : TaskNode) :
    ∀ n ∈ mapValues (getAllNodes root), n ∈ preList [root] := by
  intro n hn
  unfold getAllNodes at hn
  have := mapValues_mapOfList_subset ((preList [root]).map (fun m => (m.id, m))) n hn
  rwa [pairs_map_snd] at this

theorem adjOf_closed (root : TaskNode) :
    ∀ x v, v ∈ adjOf root x → v ∈ mapKeys (getAllNodes root) := by
  intro x v hv
  unfold adjOf at hv
  cases hg : mapGet (getAllNodes root) x with
  | none => rw [hg] at hv; cases hv
  | some n =>
    rw [hg] at hv
    simp only [List.mem_append, List.mem_map, List.mem_filter] at hv
    rcases hv with ⟨c, hc, rfl⟩ | ⟨_, hhas⟩
    · have hn : n ∈ preList [root] :=
        getAllNodes_values_sub_preList root n (mapGet_mem_values _ x n hg)
      have hcp : c ∈ preList [root] := preList_children_mem [root] n hn c hc
      unfold getAllNodes
      rw [mem_keys_mapOfList, pairs_map_fst]
      exact List.mem_map.mpr ⟨c, hcp, rfl⟩
    · exact (mapHas_iff _ v).mp hhas

theorem adjOf_eq_nil_of_not_mem (root : TaskNode) (x : String)
    (h : x ∉ mapKeys (getAllNodes root)) : adjOf root x = [] := by
  unfold adjOf
  rw [(mapGet_eq_none_iff _ x).mpr h]

theorem countNotMem_nil_vis (l : List String) : countNotMem [] l = l.length := by
  induction l with
  | nil => rfl
  | cons a t ih => simp [countNotMem, ih, Nat.add_comm]

/-- The central bridge: the DFS flag is raised exactly when the merged graph
contains a cycle. -/
theorem computeAcyclicity_cyc_iff (root : TaskNode) :
    (dfsAll (adjOf root) (mapKeys (getAllNodes root)).length
        (mapKeys (getAllNodes root)) ⟨[], [], false⟩).cyc = true ↔
      hasCycleProp (adjOf root) := by
  constructor
  · exact dfsAll_sound (adjOf root) _ (mapKeys (getAllNodes root)) ⟨[], [], false⟩ rfl rfl
  · intro hcyc
    by_contra hcy
    have hfalse : (dfsAll (adjOf root) (mapKeys (getAllNodes root)).length
        (mapKeys (getAllNodes root)) ⟨[], [], false⟩).cyc = false :=
      Bool.eq_false_iff.mpr hcy
    have hres := dfsAll_complete (adjOf root) (mapKeys (getAllNodes root))
      (adjOf_closed root) (mapKeys (getAllNodes root)).length
      (mapKeys (getAllNodes root)) ⟨[], [], false⟩ rfl rfl
      (by intro x hx; cases hx)
      ⟨fun _ => 0, by rintro x ⟨h1, _⟩; cases h1⟩
      (by
        show countNotMem [] (mapKeys (getAllNodes root)) ≤ _
        rw [countNotMem_nil_vis])
      (fun id h => h) hfalse
    rcases hres with ⟨⟨f, hf⟩, _, _, hblackAll⟩
    refine absurd hcyc (not_hasCycleProp_of_rank (adjOf root) f ?_)
    intro u v hv
    by_cases hu : u ∈ mapKeys (getAllNodes root)
    · exact (hf u (hblackAll u hu) v hv).2
    · rw [adjOf_eq_nil_of_not_mem root u hu] at hv
      cases hv

/-! ### A dependency-free graph is acyclic, duplicate ids included

Along every decomposition edge of the merged graph, the last pre-order
occurrence of the target id lies strictly later than the last occurrence of
the source id (a child follows its parent, and the map keeps the last node
per id), so position-from-the-end of the last occurrence is a strictly
decreasing rank. -/

theorem mapGet_foldl_mapSet {α : Type} (l : List (String × α)) :
    ∀ (m : JsMap α) (k : String),
    mapGet (l.foldl (fun m p => mapSet m p.1 p.2) m) k =
      match mapGet l.reverse k with
      | some v => some v
      | none => mapGet m k := by
  induction l with
  | nil => intro m k; simp [mapGet]
  | cons p rest ih =>
    intro m k
    rw [List.foldl_cons, ih (mapSet m p.1 p.2) k, List.reverse_cons, mapGet_append]
    rcases h1 : mapGet rest.reverse k with _ | v
    · simp only [h1]
      rw [mapGet_mapSet]
      by_cases hp : p.1 = k <;> simp [mapGet, hp]
    · simp only [h1]

theorem mapGet_mapOfList_reverse {α : Type} (l : List (String × α)) (k : String) :
    mapGet (mapOfList l) k = mapGet l.reverse k := by
  unfold mapOfList
  rw [mapGet_foldl_mapSet l [] k]
  rcases h1 : mapGet l.reverse k with _ | v <;> simp [h1, mapGet]

/-- Index of the first node with a given id (the length of the list when no
node has it). -/
def idxOfId : List TaskNode → String → ℕ
  | [], _ => 0
  | n :: rest, k => if n.id = k then 0 else idxOfId rest k + 1

theorem idxOfId_le_of_getElem (R : List TaskNode) :
    ∀ (j : ℕ) (c : TaskNode), R[j]? = some c → idxOfId R c.id ≤ j := by
  induction R with
  | nil => intro j c h; rw [List.getElem?_nil] at h; cases h
  | cons n rest ih =>
    intro j c h
    unfold idxOfId
    by_cases hn : n.id = c.id
    · rw [if_pos hn]
      exact Nat.zero_le j
    · rw [if_neg hn]
      cases j with
      | zero =>
        rw [List.getElem?_cons_zero] at h
        cases Option.some.inj h
        exact absurd rfl hn
      | succ j =>
        rw [List.getElem?_cons_succ] at h
        exact Nat.succ_le_succ (ih j c h)

theorem mapGet_pairs_split (R : List TaskNode) (u : String) (n : TaskNode) :
    mapGet (R.map (fun m => (m.id, m))) u = some n →
    n.id = u ∧ idxOfId R u < R.length ∧ R[idxOfId R u]? = some n := by
  induction R with
  | nil => intro h; cases h
  | cons m rest ih =>
    intro h
    rw [List.map_cons] at h
    unfold mapGet at h
    by_cases hm : m.id = u
    · rw [if_pos hm] at h
      cases Option.some.inj h
      unfold idxOfId
      rw [if_pos hm]
      exact ⟨hm, Nat.succ_pos _, List.getElem?_cons_zero⟩
    · rw [if_neg hm] at h
      rcases ih h with ⟨h1, h2, h3⟩
      unfold idxOfId
      rw [if_neg hm]
      refine ⟨h1, Nat.succ_lt_succ h2, ?_⟩
      rw [List.getElem?_cons_succ]
      exact h3

theorem preList_children_later :
    ∀ (l : List TaskNode) (i : ℕ) (n : TaskNode), (preList l)[i]? = some n →
    ∀ c ∈ n.children, ∃ j, i < j ∧ (preList l)[j]? = some c := by
  intro l
  induction l using preList.induct with
  | case1 => intro i n h; simp [preList] at h
  | case2 nid nt nde np ne cs deps rest ih1 ih2 =>
    intro i n h c hc
    simp only [preList] at h ⊢
    cases i with
    | zero =>
      rw [List.getElem?_cons_zero] at h
      cases Option.some.inj h
      have hcm : c ∈ preList cs := self_mem_preList cs c hc
      rcases List.getElem?_of_mem hcm with ⟨j0, hj0⟩
      have hj0len : j0 < (preList cs).length := (List.getElem?_eq_some_iff.mp hj0).1
      refine ⟨j0 + 1, Nat.succ_pos _, ?_⟩
      rw [List.getElem?_cons_succ, List.getElem?_append_left hj0len]
      exact hj0
    | succ i' =>
      rw [List.getElem?_cons_succ] at h
      by_cases hi : i' < (preList cs).length
      · rw [List.getElem?_append_left hi] at h
        rcases ih1 i' n h c hc with ⟨j, hij, hj⟩
        have hjlen : j < (preList cs).length := (List.getElem?_eq_some_iff.mp hj).1
        refine ⟨j + 1, Nat.succ_lt_succ hij, ?_⟩
        rw [List.getElem?_cons_succ, List.getElem?_append_left hjlen]
        exact hj
      · push_neg at hi
        rw [List.getElem?_append_right hi] at h
        rcases ih2 (i' - (preList cs).length) n h c hc with ⟨j, hij, hj⟩
        refine ⟨j + (preList cs).length + 1, by omega, ?_⟩
        rw [List.getElem?_cons_succ, List.getElem?_append_right (by omega)]
        have heq : j + (preList cs).length - (preList cs).length = j := by omega
        rw [heq]
        exact hj

theorem adjOf_rank_noDeps (root : TaskNode)
    (hdep : ∀ n ∈ preList [root], n.dependencies = []) :
    ∀ u v, v ∈ adjOf root u →
      idxOfId (preList [root]).reverse v < idxOfId (preList [root]).reverse u := by
  intro u v hv
  unfold adjOf at hv
  cases hg : mapGet (getAllNodes root) u with
  | none => rw [hg] at hv; cases hv
  | some n =>
    rw [hg] at hv
    have hn : n ∈ preList [root] :=
      getAllNodes_values_sub_preList root n (mapGet_mem_values _ u n hg)
    change v ∈ n.children.map TaskNode.id ++
      n.dependencies.filter (fun d => mapHas (getAllNodes root) d) at hv
    rw [hdep n hn] at hv
    simp only [List.filter_nil, List.map_nil, List.append_nil, List.mem_map] at hv
    rcases hv with ⟨c, hc, rfl⟩
    have hget : mapGet ((preList [root]).reverse.map (fun m => (m.id, m))) u = some n := by
      have h1 := mapGet_mapOfList_reverse ((preList [root]).map (fun m => (m.id, m))) u
      rw [← List.map_reverse] at h1
      unfold getAllNodes at hg
      rw [h1] at hg
      exact hg
    rcases mapGet_pairs_split (preList [root]).reverse u n hget with ⟨hid, hlt, hgetn⟩
    have hRlen : (preList [root]).reverse.length = (preList [root]).length :=
      List.length_reverse _
    rw [hRlen] at hlt
    have hfwd : (preList [root])[(preList [root]).length - 1 -
        idxOfId (preList [root]).reverse u]? = some n := by
      have hrev := List.getElem?_reverse
        (l := preList [root]) (i := idxOfId (preList [root]).reverse u) hlt
      rw [← hrev]
      exact hgetn
    rcases preList_children_later [root] _ n hfwd c hc with ⟨j, hij, hj⟩
    have hjlen : j < (preList [root]).length := (List.getElem?_eq_some_iff.mp hj).1
    have hb : (preList [root]).reverse[(preList [root]).length - 1 - j]? = some c := by
      have hrev := List.getElem?_reverse (l := preList [root])
        (i := (preList [root]).length - 1 - j) (by omega)
      rw [hrev]
      have heq : (preList [root]).length - 1 - ((preList [root]).length - 1 - j) = j := by
        omega
      rw [heq]
      exact hj
    have hle : idxOfId (preList [root]).reverse c.id ≤ (preList [root]).length - 1 - j :=
      idxOfId_le_of_getElem _ _ c hb
    omega

theorem hasCycleProp_selfdep (root : TaskNode) (hnd : (nodeIds root).Nodup)
    (n : TaskNode) (hn : n ∈ preList [root]) (hdep : n.id ∈ n.dependencies) :
    hasCycleProp (adjOf root) := by
  have hget : mapGet (getAllNodes root) n.id = some n := by
    rw [getAllNodes_eq_of_nodup root hnd]
    apply mapGet_of_mem_nodup
    · rw [pairs_map_fst]
      exact hnd
    · exact List.mem_map.mpr ⟨n, hn, rfl⟩
  have hkeys : n.id ∈ mapKeys (getAllNodes root) := by
    unfold getAllNodes
    rw [mem_keys_mapOfList, pairs_map_fst]
    exact List.mem_map.mpr ⟨n, hn, rfl⟩
  have hedge : n.id ∈ adjOf root n.id := by
    unfold adjOf
    rw [hget]
    refine List.mem_append.mpr (Or.inr ?_)
    exact List.mem_filter.mpr ⟨hdep, (mapHas_iff _ _).mpr hkeys⟩
  exact ⟨n.id, [n.id], by simp, ⟨hedge, trivial⟩, rfl⟩

/-- Claim C2: `computeAcyclicity` is binary — score 0.0 exactly when the merged
graph (decomposition plus resolved dependency edges) contains a cycle and 1.0
exactly when it contains none; every tree with no dependencies at all scores
1.0 (trees with duplicate node ids included); and, under the data model's
unique-id invariant, any node that depends on its own id forces score 0.0. -/
theorem computeAcyclicity_spec (root : TaskNode) :
    ((computeAcyclicity root).score = 0 ↔ hasCycleProp (adjOf root)) ∧
    ((computeAcyclicity root).score = 1 ↔ ¬ hasCycleProp (adjOf root)) ∧
    ((∀ n ∈ preList [root], n.dependencies = []) → (computeAcyclicity root).score = 1) ∧
    ((nodeIds root).Nodup → (∃ n ∈ preList [root], n.id ∈ n.dependencies) →
      (computeAcyclicity root).score = 0) := by
  have hiff := computeAcyclicity_cyc_iff root
  have hscore : (computeAcyclicity root).score =
      if (dfsAll (adjOf root) (mapKeys (getAllNodes root)).length
          (mapKeys (getAllNodes root)) ⟨[], [], false⟩).cyc then 0 else 1 := rfl
  rcases hb : (dfsAll (adjOf root) (mapKeys (getAllNodes root)).length
      (mapKeys (getAllNodes root)) ⟨[], [], false⟩).cyc with _ | _
  · have hnc : ¬ hasCycleProp (adjOf root) := fun hcyc => by
      rw [hiff.mpr hcyc] at hb
      exact Bool.noConfusion hb
    have hs1 : (computeAcyclicity root).score = 1 := by
      rw [hscore, hb]
      norm_num
    refine ⟨?_, ?_, fun _ => hs1, ?_⟩
    · constructor
      · intro h
        rw [hs1] at h
        exact absurd h (by norm_num)
      · intro hcyc
        exact absurd hcyc hnc
    · rw [hs1]
      exact iff_of_true rfl hnc
    · rintro hnd ⟨n, hn, hd⟩
      exact absurd (hasCycleProp_selfdep root hnd n hn hd) hnc
  · have hcyc : hasCycleProp (adjOf root) := hiff.mp hb
    have hs0 : (computeAcyclicity root).score = 0 := by
      rw [hscore, hb]
      simp
    refine ⟨iff_of_true hs0 hcyc, ?_, ?_, fun _ _ => hs0⟩
    · refine iff_of_false ?_ (not_not_intro hcyc)
      rw [hs0]
      norm_num
    · intro hdep
      exact absurd hcyc (not_hasCycleProp_of_rank (adjOf root)
        (fun k => idxOfId (preList [root]).reverse k) (adjOf_rank_noDeps root hdep))

/-- Witness tree for C2: a single node that depends on itself. -/
def c2SelfDepTree : TaskNode := .mk "a" "self dependent task" none none none [] ["a"]

/-- Witness tree for C2: two nodes, no dependencies. -/
def c2NoDepTree : TaskNode :=
  .mk "r" "root" none none none [.mk "c" "child" none none none [] []] []

/-- Witness for claim C2 at concrete trees: a single self-dependent node
scores 0.0 and a dependency-free tree scores 1.0. -/
theorem computeAcyclicity_spec_witness :
    (computeAcyclicity c2SelfDepTree).score = 0 ∧
    (computeAcyclicity c2NoDepTree).score = 1 := by
  constructor
  · exact (computeAcyclicity_spec c2SelfDepTree).2.2.2
      (by simp [nodeIds, preList, c2SelfDepTree, TaskNode.id])
      ⟨TaskNode.mk "a" "self dependent task" none none none [] ["a"],
        by simp [preList, c2SelfDepTree],
        by simp [TaskNode.id, TaskNode.dependencies]⟩
  · exact (computeAcyclicity_spec c2NoDepTree).2.2.1
      (by
        intro n hn
        simp [preList, c2NoDepTree] at hn
        rcases hn with rfl | rfl <;> rfl)

/-! ## Semantic metrics (semantic.ts)

The LLM chat client, the embedding client, the prompt builders (spec §1
excludes prompt text construction from the core), and the JS numeric
builtins `parseFloat`, `parseInt`, `Math.sqrt` and `Math.exp` are parameters
of this section; every theorem below is universally quantified over them. -/

/-- Message role of the LLM chat interface (src/llm/client.ts). -/
inductive LLMRole where
  | system
  | user
  | assistant
deriving DecidableEq

/-- A chat message (src/llm/client.ts). -/
structure LLMMessage where
  role : LLMRole
  content : String

/-- `getLeafNodes` from semantic.ts: the childless nodes in pre-order (the
source pushes exactly the childless nodes during the pre-order recursion). -/
def getLeafNodes (root : TaskNode) : List TaskNode :=
  (preList [root]).filter (fun n => n.children.length = 0)

section Semantic

variable (chat : List LLMMessage → String)
variable (embed : String → List ℚ)
variable (sqrtQ : ℚ → ℚ)
variable (expQ : ℚ → ℚ)
variable (parseFloatQ : String → Option ℚ)
variable (parseIntQ : String → Option ℤ)
variable (getEstimateEffortPrompt : TaskNode → String)
variable (getJudgeExecutabilityPrompt : TaskNode → String)

/-- `cosineSimilarity` from semantic.ts: throws when the vectors differ in
length, otherwise dot product over the product of Euclidean norms (the index
loop over the equal-length vectors is the `zipWith`/`map` sums; `Math.sqrt`
is the parameter `sqrtQ`). -/
def cosineSimilarity (a b : List ℚ) : Except String ℚ :=
  if a.length ≠ b.length then .error "Vectors must have the same length"
  else
    .ok ((List.zipWith (· * ·) a b).sum /
      (sqrtQ ((a.map (fun x => x * x)).sum) * sqrtQ ((b.map (fun x => x * x)).sum)))

/-- The value `cosineSimilarity` returns on equal-length vectors. -/
def cosVal (a b : List ℚ) : ℚ :=
  (List.zipWith (· * ·) a b).sum /
    (sqrtQ ((a.map (fun x => x * x)).sum) * sqrtQ ((b.map (fun x => x * x)).sum))

theorem cosineSimilarity_ok (a b : List ℚ) (h : a.length = b.length) :
    cosineSimilarity sqrtQ a b = .ok (cosVal sqrtQ a b) := by
  unfold cosineSimilarity cosVal
  rw [if_neg (by simpa using h)]

/-- The text embedded for a node: title, a space, the optional description,
whitespace-trimmed. -/
def nodeText (n : TaskNode) : String :=
  (n.title ++ " " ++ (n.description.getD "")).trim

/-- The (i, j) index pairs, i < j < n, in the order of the source's nested
loops over node indices (the inner loop runs j from i + 1 to n − 1). -/
def pairIdx (n : ℕ) : List (ℕ × ℕ) :=
  (List.range n).flatMap (fun i => (List.range' (i + 1) (n - (i + 1))).map (fun j => (i, j)))

/-- The loop body of `computeRedundancy` for one index pair: compute the
cosine similarity of the two embeddings (which can throw), bump the
redundant counter and record the pair when the similarity strictly exceeds
the threshold, and always bump the total-pairs counter. -/
def redundancyStep (threshold : ℚ) (embeddings : List (List ℚ))
    (acc : ℕ × ℕ × List (ℕ × ℕ × ℚ)) (ij : ℕ × ℕ) :
    Except String (ℕ × ℕ × List (ℕ × ℕ × ℚ)) := do
  let sim ← cosineSimilarity sqrtQ (embeddings.getD ij.1 []) (embeddings.getD ij.2 [])
  if threshold < sim then
    pure (acc.1 + 1, acc.2.1 + 1, acc.2.2 ++ [(ij.1, ij.2, sim)])
  else
    pure (acc.1, acc.2.1 + 1, acc.2.2)

/-- Whether `computeRedundancy` counts the index pair `ij` as redundant:
its similarity strictly exceeds the threshold. -/
def redPair (threshold : ℚ) (embeddings : List (List ℚ)) (ij : ℕ × ℕ) : Bool :=
  decide (threshold < cosVal sqrtQ (embeddings.getD ij.1 []) (embeddings.getD ij.2 []))

/-- `computeRedundancy` from semantic.ts (§3.5): trivial score 1.0 for fewer
than two nodes; otherwise embed every node's text (in pre-order), compare
every index pair, count pairs whose similarity strictly exceeds the
threshold, and return 1 − redundant/total keeping the first five similar
pairs for diagnostics. A thrown similarity error aborts the whole
computation (`foldlM` over `Except` stops at the first error exactly like
the `await` loop). The non-null index accesses are rendered with `getD`. -/
def computeRedundancy (root : TaskNode) (threshold : ℚ := 0.8) :
    Except String EvaluationResult :=
  if (preList [root]).length < 2 then .ok ⟨1, some (.redundancyTrivialD 0 0)⟩
  else do
    let acc ← (pairIdx (preList [root]).length).foldlM
      (redundancyStep sqrtQ threshold ((preList [root]).map (fun n => embed (nodeText n))))
      ((0, 0, []) : ℕ × ℕ × List (ℕ × ℕ × ℚ))
    pure ⟨1 - (if 0 < acc.2.1 then (acc.1 : ℚ) / (acc.2.1 : ℚ) else 0),
      some (.redundancyD acc.1 acc.2.1 threshold (acc.2.2.take 5))⟩

/-- The per-leaf step of `computeGranularity`: build the effort prompt, ask
the chat collaborator, parse with `parseFloat`; an unparseable answer yields
the fallback entry (title, −1, 0.5), otherwise the leaf scores 1 inside
[idealMin, idealMax] and `exp(−α·|effort − mid| / mid)` outside it. -/
def granularityEntry (leaf : TaskNode) (idealMin idealMax α : ℚ) : String × ℚ × ℚ :=
  let response := chat [⟨.user, getEstimateEffortPrompt leaf⟩]
  match parseFloatQ response.trim with
  | none => (leaf.title, -1, 1/2)
  | some effort =>
    let score : ℚ :=
      if idealMin ≤ effort ∧ effort ≤ idealMax then 1
      else expQ (-α * |effort - (idealMin + idealMax) / 2| / ((idealMin + idealMax) / 2))
    (leaf.title, effort, score)

/-- `computeGranularity` from semantic.ts (§3.4): 1.0 with no leaves,
otherwise the arithmetic mean of the per-leaf scores (the source fills the
`scores` and `efforts` arrays in one pass over the leaves; mapping the entry
function over the leaves yields the same arrays). -/
def computeGranularity (root : TaskNode) (idealMin : ℚ := 1) (idealMax : ℚ := 8)
    (α : ℚ := 1) : EvaluationResult :=
  let leaves := getLeafNodes root
  if leaves.length = 0 then ⟨1, some (.granularityTrivialD 0)⟩
  else
    let efforts := leaves.map (fun leaf =>
      granularityEntry chat expQ parseFloatQ getEstimateEffortPrompt leaf idealMin idealMax α)
    let scores := efforts.map (fun e => e.2.2)
    ⟨scores.sum / (scores.length : ℚ),
      some (.granularityD leaves.length idealMin idealMax efforts)⟩

/-- The per-leaf step of `computeExecutability`: ask for a 1–5 rating,
parse with `parseInt`; an unparseable or out-of-range answer yields the
fallback (title, 3, 0.5), otherwise normalize to (rating − 1)/4. -/
def executabilityEntry (leaf : TaskNode) : String × ℤ × ℚ :=
  let response := chat [⟨.user, getJudgeExecutabilityPrompt leaf⟩]
  match parseIntQ response.trim with
  | none => (leaf.title, 3, 1/2)
  | some rating =>
    if rating < 1 ∨ rating > 5 then (leaf.title, 3, 1/2)
    else (leaf.title, rating, ((rating : ℚ) - 1) / 4)

/-- `computeExecutability` from semantic.ts (§3.6): 1.0 with no leaves,
otherwise the arithmetic mean of the normalized per-leaf ratings. -/
def computeExecutability (root : TaskNode) : EvaluationResult :=
  let leaves := getLeafNodes root
  if leaves.length = 0 then ⟨1, some (.executabilityTrivialD 0)⟩
  else
    let ratings := leaves.map (fun leaf =>
      executabilityEntry chat parseIntQ getJudgeExecutabilityPrompt leaf)
    ⟨(ratings.map (fun r => r.2.2)).sum / (ratings.length : ℚ),
      some (.executabilityD leaves.length ratings)⟩

/-! ### Claims C5 and C9: granularity scoring and judgment fallbacks -/

/-- Claim C5: for every leaf whose effort response parses as a number `e`,
the leaf scores exactly 1.0 iff `idealMin ≤ e ≤ idealMax`, and otherwise
scores `exp(−α·|e − mid| / mid)`, which is strictly below 1.0 (for any
exponential-like `expQ` that maps negatives below 1, as `Math.exp` does);
the returned score is the arithmetic mean of the per-leaf scores, and 1.0
when the tree has no leaves. -/
theorem computeGranularity_spec (root : TaskNode) (idealMin idealMax α : ℚ)
    (hrange : idealMin ≤ idealMax) (hmid : 0 < (idealMin + idealMax) / 2)
    (hα : 0 < α) (hexp : ∀ x : ℚ, x < 0 → expQ x < 1) :
    (∀ (leaf : TaskNode) (e : ℚ),
      parseFloatQ ((chat [⟨.user, getEstimateEffortPrompt leaf⟩]).trim) = some e →
      ((granularityEntry chat expQ parseFloatQ getEstimateEffortPrompt leaf
          idealMin idealMax α).2.2 = 1 ↔ idealMin ≤ e ∧ e ≤ idealMax) ∧
      (¬(idealMin ≤ e ∧ e ≤ idealMax) →
        (granularityEntry chat expQ parseFloatQ getEstimateEffortPrompt leaf
            idealMin idealMax α).2.2 =
          expQ (-α * |e - (idealMin + idealMax) / 2| / ((idealMin + idealMax) / 2)) ∧
        (granularityEntry chat expQ parseFloatQ getEstimateEffortPrompt leaf
            idealMin idealMax α).2.2 < 1)) ∧
    (getLeafNodes root = [] →
      (computeGranularity chat expQ parseFloatQ getEstimateEffortPrompt root
          idealMin idealMax α).score = 1) ∧
    (getLeafNodes root ≠ [] →
      (computeGranularity chat expQ parseFloatQ getEstimateEffortPrompt root
          idealMin idealMax α).score =
        ((getLeafNodes root).map (fun leaf =>
          (granularityEntry chat expQ parseFloatQ getEstimateEffortPrompt leaf
              idealMin idealMax α).2.2)).sum / ((getLeafNodes root).length : ℚ)) := by
  refine ⟨?_, ?_, ?_⟩
  · intro leaf e hp
    have hentry : granularityEntry chat expQ parseFloatQ getEstimateEffortPrompt leaf
        idealMin idealMax α =
        (leaf.title, e,
          if idealMin ≤ e ∧ e ≤ idealMax then 1
          else expQ (-α * |e - (idealMin + idealMax) / 2| / ((idealMin + idealMax) / 2))) := by
      simp only [granularityEntry, hp]
    rw [hentry]
    have harg : ¬(idealMin ≤ e ∧ e ≤ idealMax) →
        -α * |e - (idealMin + idealMax) / 2| / ((idealMin + idealMax) / 2) < 0 := by
      intro hno
      have habs : 0 < |e - (idealMin + idealMax) / 2| := by
        rw [abs_pos, sub_ne_zero]
        intro he
        rcases not_and_or.mp hno with h | h
        · apply h
          rw [he]
          linarith
        · apply h
          rw [he]
          linarith
      have hnum : -α * |e - (idealMin + idealMax) / 2| < 0 :=
        mul_neg_of_neg_of_pos (neg_neg_of_pos hα) habs
      exact div_neg_of_neg_of_pos hnum hmid
    by_cases hin : idealMin ≤ e ∧ e ≤ idealMax
    · refine ⟨?_, fun hno => absurd hin hno⟩
      rw [if_pos hin]
      exact iff_of_true rfl hin
    · refine ⟨?_, fun _ => ?_⟩
      · rw [if_neg hin]
        exact iff_of_false (ne_of_lt (hexp _ (harg hin))) hin
      · rw [if_neg hin]
        exact ⟨rfl, hexp _ (harg hin)⟩
  · intro h0
    simp [computeGranularity, h0]
  · intro hne
    have hlen : (getLeafNodes root).length ≠ 0 := fun h => hne (List.length_eq_zero.mp h)
    unfold computeGranularity
    rw [if_neg hlen]
    simp only [List.map_map, List.length_map]
    rfl

/-- Claim C9: an unparseable judgment is never fatal — a granularity leaf
whose response does not parse gets the fixed fallback score 0.5 (recorded
with effort −1), an executability leaf whose response does not parse or
parses outside [1, 5] gets rating 3 (normalized 0.5), and both metric
evaluations still complete with exactly one entry per leaf. -/
theorem unparseableJudgment_spec (root : TaskNode) (idealMin idealMax α : ℚ) :
    (∀ leaf : TaskNode,
      parseFloatQ ((chat [⟨.user, getEstimateEffortPrompt leaf⟩]).trim) = none →
      granularityEntry chat expQ parseFloatQ getEstimateEffortPrompt leaf idealMin idealMax α =
        (leaf.title, -1, 1/2)) ∧
    (∀ leaf : TaskNode,
      parseIntQ ((chat [⟨.user, getJudgeExecutabilityPrompt leaf⟩]).trim) = none →
      executabilityEntry chat parseIntQ getJudgeExecutabilityPrompt leaf =
        (leaf.title, 3, 1/2)) ∧
    (∀ (leaf : TaskNode) (r : ℤ),
      parseIntQ ((chat [⟨.user, getJudgeExecutabilityPrompt leaf⟩]).trim) = some r →
      (r < 1 ∨ 5 < r) →
      executabilityEntry chat parseIntQ getJudgeExecutabilityPrompt leaf =
        (leaf.title, 3, 1/2)) ∧
    (getLeafNodes root ≠ [] →
      (computeGranularity chat expQ parseFloatQ getEstimateEffortPrompt root
          idealMin idealMax α).details =
        some (.granularityD (getLeafNodes root).length idealMin idealMax
          ((getLeafNodes root).map (fun leaf =>
            granularityEntry chat expQ parseFloatQ getEstimateEffortPrompt leaf
              idealMin idealMax α)))) ∧
    (getLeafNodes root ≠ [] →
      (computeExecutability chat parseIntQ getJudgeExecutabilityPrompt root).details =
        some (.executabilityD (getLeafNodes root).length
          ((getLeafNodes root).map (fun leaf =>
            executabilityEntry chat parseIntQ getJudgeExecutabilityPrompt leaf)))) := by
  refine ⟨?_, ?_, ?_, ?_, ?_⟩
  · intro leaf hp
    simp only [granularityEntry, hp]
  · intro leaf hp
    simp only [executabilityEntry, hp]
  · intro leaf r hp hout
    simp only [executabilityEntry, hp]
    rw [if_pos hout]
  · intro hne
    have hlen : (getLeafNodes root).length ≠ 0 := fun h => hne (List.length_eq_zero.mp h)
    unfold computeGranularity
    rw [if_neg hlen]
  · intro hne
    have hlen : (getLeafNodes root).length ≠ 0 := fun h => hne (List.length_eq_zero.mp h)
    unfold computeExecutability
    rw [if_neg hlen]

/-! ### Claims C7 and C8: redundancy counting and similarity errors -/

theorem exceptBind_ok {α β : Type} (v : α) (f : α → Except String β) :
    (Except.ok v >>= f) = f v := rfl

theorem exceptBind_error {α β : Type} (e : String) (f : α → Except String β) :
    ((Except.error e : Except String α) >>= f) = Except.error e := rfl

theorem exceptBind_pure {α β : Type} (v : α) (f : α → Except String β) :
    ((pure v : Except String α) >>= f) = f v := rfl

theorem redundancyStep_ok (threshold : ℚ) (embeddings : List (List ℚ))
    (acc : ℕ × ℕ × List (ℕ × ℕ × ℚ)) (ij : ℕ × ℕ)
    (h : (embeddings.getD ij.1 ([] : List ℚ)).length = (embeddings.getD ij.2 []).length) :
    redundancyStep sqrtQ threshold embeddings acc ij =
      .ok (if redPair sqrtQ threshold embeddings ij
        then (acc.1 + 1, acc.2.1 + 1,
          acc.2.2 ++ [(ij.1, ij.2, cosVal sqrtQ (embeddings.getD ij.1 []) (embeddings.getD ij.2 []))]
        )
        else (acc.1, acc.2.1 + 1, acc.2.2)) := by
  unfold redundancyStep
  rw [cosineSimilarity_ok _ _ _ h, exceptBind_ok]
  by_cases hp : threshold < cosVal sqrtQ (embeddings.getD ij.1 []) (embeddings.getD ij.2 [])
  · rw [if_pos hp, if_pos (show redPair sqrtQ threshold embeddings ij = true by
      simpa [redPair] using hp)]
    rfl
  · rw [if_neg hp, if_neg (show ¬redPair sqrtQ threshold embeddings ij = true by
      simpa [redPair] using hp)]
    rfl

theorem redundancyStep_error (threshold : ℚ) (embeddings : List (List ℚ))
    (acc : ℕ × ℕ × List (ℕ × ℕ × ℚ)) (ij : ℕ × ℕ)
    (h : (embeddings.getD ij.1 ([] : List ℚ)).length ≠ (embeddings.getD ij.2 []).length) :
    redundancyStep sqrtQ threshold embeddings acc ij =
      .error "Vectors must have the same length" := by
  unfold redundancyStep cosineSimilarity
  rw [if_pos h, exceptBind_error]

theorem redundancyFold_ok (threshold : ℚ) (embeddings : List (List ℚ)) (L : List (ℕ × ℕ))
    (h : ∀ ij ∈ L, (embeddings.getD ij.1 ([] : List ℚ)).length = (embeddings.getD ij.2 []).length) :
    ∀ acc : ℕ × ℕ × List (ℕ × ℕ × ℚ),
      L.foldlM (redundancyStep sqrtQ threshold embeddings) acc =
        .ok (acc.1 + (L.filter (redPair sqrtQ threshold embeddings)).length,
             acc.2.1 + L.length,
             acc.2.2 ++ (L.filter (redPair sqrtQ threshold embeddings)).map
               (fun ij => (ij.1, ij.2,
                 cosVal sqrtQ (embeddings.getD ij.1 []) (embeddings.getD ij.2 [])))) := by
  induction L with
  | nil =>
    intro acc
    simp only [List.filter_nil, List.length_nil, Nat.add_zero, List.map_nil, List.append_nil]
    rfl
  | cons ij rest ih =>
    intro acc
    have hrest : ∀ ij' ∈ rest,
        (embeddings.getD ij'.1 ([] : List ℚ)).length = (embeddings.getD ij'.2 []).length :=
      fun ij' hm => h ij' (by simp [hm])
    rw [List.foldlM_cons, redundancyStep_ok _ _ _ _ _ (h ij (by simp))]
    by_cases hp : redPair sqrtQ threshold embeddings ij = true
    · rw [if_pos hp, exceptBind_ok, ih hrest,
        List.filter_cons_of_pos hp, List.length_cons, List.map_cons, List.length_cons]
      simp only [Except.ok.injEq, Prod.mk.injEq]
      refine ⟨by omega, by omega, ?_⟩
      simp [List.append_assoc]
    · rw [if_neg hp, exceptBind_ok, ih hrest,
        List.filter_cons_of_neg hp, List.length_cons]
      simp only [Except.ok.injEq, Prod.mk.injEq]
      exact ⟨by trivial, by omega, by trivial⟩

theorem redundancyFold_error (threshold : ℚ) (embeddings : List (List ℚ)) (L : List (ℕ × ℕ))
    (h : ∃ ij ∈ L,
      (embeddings.getD ij.1 ([] : List ℚ)).length ≠ (embeddings.getD ij.2 []).length) :
    ∀ acc : ℕ × ℕ × List (ℕ × ℕ × ℚ),
      L.foldlM (redundancyStep sqrtQ threshold embeddings) acc =
        .error "Vectors must have the same length" := by
  induction L with
  | nil => simp at h
  | cons ij rest ih =>
    intro acc
    rw [List.foldlM_cons]
    by_cases hij : (embeddings.getD ij.1 ([] : List ℚ)).length = (embeddings.getD ij.2 []).length
    · rw [redundancyStep_ok _ _ _ _ _ hij, exceptBind_ok]
      have hrest : ∃ ij' ∈ rest,
          (embeddings.getD ij'.1 ([] : List ℚ)).length ≠ (embeddings.getD ij'.2 []).length := by
        rcases h with ⟨ij', hm, hne⟩
        rcases List.mem_cons.mp hm with heq | hm'
        · exact absurd hij (heq ▸ hne)
        · exact ⟨ij', hm', hne⟩
      exact ih hrest _
    · rw [redundancyStep_error _ _ _ _ _ hij, exceptBind_error]

theorem pairIdx_mem (n i j : ℕ) : (i, j) ∈ pairIdx n ↔ i < j ∧ j < n := by
  simp only [pairIdx, List.mem_flatMap, List.mem_map, List.mem_range, List.mem_range',
    Prod.mk.injEq]
  constructor
  · rintro ⟨a, ha, b, ⟨k, hk, rfl⟩, rfl, rfl⟩
    omega
  · rintro ⟨hij, hjn⟩
    exact ⟨i, by omega, j, ⟨j - i - 1, by omega, by omega⟩, rfl, rfl⟩

theorem sum_map_succ_shift (l : List ℕ) (f g : ℕ → ℕ) (h : ∀ i ∈ l, f i = g i + 1) :
    (l.map f).sum = (l.map g).sum + l.length := by
  induction l with
  | nil => simp
  | cons a t ih =>
    simp only [List.map_cons, List.sum_cons, List.length_cons,
      h a (by simp), ih (fun i hi => h i (by simp [hi]))]
    omega

theorem pairIdx_length_eq (n : ℕ) :
    (pairIdx n).length = ((List.range n).map (fun i => n - (i + 1))).sum := by
  simp [pairIdx, List.length_flatMap, Function.comp_def]

theorem pairIdx_length (n : ℕ) : (pairIdx n).length * 2 = n * (n - 1) := by
  induction n with
  | zero => rfl
  | succ m ih =>
    have hshift : (pairIdx (m + 1)).length = (pairIdx m).length + m := by
      rw [pairIdx_length_eq, pairIdx_length_eq, List.range_succ, List.map_append,
        List.sum_append,
        sum_map_succ_shift (List.range m) (fun i => m + 1 - (i + 1)) (fun i => m - (i + 1))
          (fun i hi => by
            simp only [List.mem_range] at hi
            show m + 1 - (i + 1) = m - (i + 1) + 1
            omega)]
      simp
    rw [hshift]
    cases m with
    | zero => rfl
    | succ k =>
      have h2 : (k + 1 + 1) * (k + 1 + 1 - 1) = (k + 1) * k + (k + 1) * 2 := by
        simp only [Nat.add_sub_cancel]
        ring
      calc ((pairIdx (k + 1)).length + (k + 1)) * 2
          = (pairIdx (k + 1)).length * 2 + (k + 1) * 2 := by ring
        _ = (k + 1) * k + (k + 1) * 2 := by rw [ih]; simp
        _ = (k + 1 + 1) * (k + 1 + 1 - 1) := h2.symm

/-- Claim C7: for fewer than two nodes `computeRedundancy` returns score 1.0;
otherwise, when all embeddings have equal length, it returns exactly
`1 − redundantPairs / totalPairs` where a pair is counted redundant iff its
cosine similarity strictly exceeds the threshold, the detail payload keeps
the first five redundant pairs in index order (a `take 5` of the filtered
list, which preserves the nested-loop order), the compared index pairs are
exactly the unordered pairs `i < j < n`, and the total pair count is
`n·(n−1)/2`. -/
theorem computeRedundancy_spec (root : TaskNode) (threshold : ℚ)
    (hlen : ∀ s₁ s₂ : String, (embed s₁).length = (embed s₂).length) :
    ((preList [root]).length < 2 →
      computeRedundancy embed sqrtQ root threshold = .ok ⟨1, some (.redundancyTrivialD 0 0)⟩) ∧
    (2 ≤ (preList [root]).length →
      computeRedundancy embed sqrtQ root threshold =
        .ok ⟨1 - (((pairIdx (preList [root]).length).filter
              (redPair sqrtQ threshold ((preList [root]).map (fun nd => embed (nodeText nd))))).length : ℚ) /
            ((pairIdx (preList [root]).length).length : ℚ),
          some (.redundancyD
            ((pairIdx (preList [root]).length).filter
              (redPair sqrtQ threshold ((preList [root]).map (fun nd => embed (nodeText nd))))).length
            (pairIdx (preList [root]).length).length
            threshold
            ((((pairIdx (preList [root]).length).filter
              (redPair sqrtQ threshold ((preList [root]).map (fun nd => embed (nodeText nd))))).map
              (fun ij => (ij.1, ij.2,
                cosVal sqrtQ (((preList [root]).map (fun nd => embed (nodeText nd))).getD ij.1 [])
                  (((preList [root]).map (fun nd => embed (nodeText nd))).getD ij.2 [])))).take 5))⟩) ∧
    (∀ i j : ℕ, (i, j) ∈ pairIdx (preList [root]).length ↔ i < j ∧ j < (preList [root]).length) ∧
    (∀ (embeddings : List (List ℚ)) (ij : ℕ × ℕ),
      redPair sqrtQ threshold embeddings ij = true ↔
        threshold < cosVal sqrtQ (embeddings.getD ij.1 []) (embeddings.getD ij.2 [])) ∧
    (pairIdx (preList [root]).length).length * 2 =
      (preList [root]).length * ((preList [root]).length - 1) := by
  refine ⟨?_, ?_, fun i j => pairIdx_mem _ i j, fun embeddings ij => by simp [redPair], pairIdx_length _⟩
  · intro h1
    unfold computeRedundancy
    rw [if_pos h1]
  · intro h2
    have hE : ∀ ij ∈ pairIdx (preList [root]).length,
        ((((preList [root]).map (fun nd => embed (nodeText nd))).getD ij.1 ([] : List ℚ)).length =
          (((preList [root]).map (fun nd => embed (nodeText nd))).getD ij.2 []).length) := by
      intro ij hm
      have hmem := (pairIdx_mem (preList [root]).length ij.1 ij.2).mp (by simpa using hm)
      have hv : ∀ k, k < (preList [root]).length →
          ∃ nd : TaskNode,
            ((preList [root]).map (fun nd => embed (nodeText nd))).getD k ([] : List ℚ) =
              embed (nodeText nd) := by
        intro k hk
        refine ⟨(preList [root]).get ⟨k, hk⟩, ?_⟩
        rw [List.getD_eq_getElem?_getD, List.getElem?_map, List.getElem?_eq_getElem hk]
        simp
      obtain ⟨nd1, e1⟩ := hv ij.1 (by omega)
      obtain ⟨nd2, e2⟩ := hv ij.2 (by omega)
      rw [e1, e2]
      exact hlen _ _
    have hpos : 0 < (pairIdx (preList [root]).length).length := by
      have : (0, 1) ∈ pairIdx (preList [root]).length :=
        (pairIdx_mem _ 0 1).mpr ⟨by omega, by omega⟩
      exact List.length_pos.mpr (List.ne_nil_of_mem this)
    unfold computeRedundancy
    rw [if_neg (by omega)]
    rw [redundancyFold_ok _ _ _ _ hE _, exceptBind_ok]
    simp only [Nat.zero_add, List.nil_append]
    rw [if_pos hpos]
    rfl

/-- Claim C8: `cosineSimilarity` returns the dimension-mismatch error exactly
when the two vectors differ in length and succeeds exactly when they do not
(it never truncates: the success value is computed from the full vectors);
consequently `computeRedundancy` fails — propagating that error and producing
no score — exactly when some compared index pair of node embeddings differs
in length. -/
theorem cosineSimilarity_mismatch_spec :
    (∀ a b : List ℚ,
      cosineSimilarity sqrtQ a b = .error "Vectors must have the same length" ↔
        a.length ≠ b.length) ∧
    (∀ a b : List ℚ, (∃ q, cosineSimilarity sqrtQ a b = .ok q) ↔ a.length = b.length) ∧
    (∀ (root : TaskNode) (threshold : ℚ),
      (∃ e, computeRedundancy embed sqrtQ root threshold = .error e) ↔
        ∃ ij ∈ pairIdx (preList [root]).length,
          ((((preList [root]).map (fun nd => embed (nodeText nd))).getD ij.1 ([] : List ℚ)).length ≠
            (((preList [root]).map (fun nd => embed (nodeText nd))).getD ij.2 []).length)) := by
  refine ⟨?_, ?_, ?_⟩
  · intro a b
    constructor
    · intro h
      intro hlen
      rw [cosineSimilarity_ok _ _ _ hlen] at h
      exact Except.noConfusion h
    · intro hne
      unfold cosineSimilarity
      rw [if_pos hne]
  · intro a b
    constructor
    · rintro ⟨q, hq⟩
      by_contra hne
      unfold cosineSimilarity at hq
      rw [if_pos hne] at hq
      exact Except.noConfusion hq
    · intro hlen
      exact ⟨_, cosineSimilarity_ok _ _ _ hlen⟩
  · intro root threshold
    by_cases h2 : (preList [root]).length < 2
    · constructor
      · rintro ⟨e, he⟩
        unfold computeRedundancy at he
        rw [if_pos h2] at he
        exact Except.noConfusion he
      · rintro ⟨ij, hm, _⟩
        have := (pairIdx_mem (preList [root]).length ij.1 ij.2).mp (by simpa using hm)
        omega
    · constructor
      · rintro ⟨e, he⟩
        by_contra hno
        push_neg at hno
        unfold computeRedundancy at he
        rw [if_neg h2] at he
        rw [redundancyFold_ok _ _ _ _ hno _, exceptBind_ok] at he
        exact Except.noConfusion he
      · intro hex
        refine ⟨"Vectors must have the same length", ?_⟩
        unfold computeRedundancy
        rw [if_neg h2]
        rw [redundancyFold_error _ _ _ _ hex _, exceptBind_error]

/-! ## TDQ aggregation (tdq.ts)

`computeTDQ` combines the six metric results into a weighted score and a
list of issues. The issue strings carry the metric's score formatted with
`toFixed(2)`; string formatting is presentation, so each issue is modelled
as a constructor carrying the numeric score it interpolates. -/

/-- `TDQWeights` from tdq.ts. -/
structure TDQWeights where
  acyclicity : ℚ
  hierarchy : ℚ
  balance : ℚ
  granularity : ℚ
  redundancy : ℚ
  executability : ℚ

/-- `DEFAULT_WEIGHTS` from tdq.ts. -/
def DEFAULT_WEIGHTS : TDQWeights :=
  ⟨0.10, 0.15, 0.10, 0.20, 0.10, 0.25⟩

/-- The `breakdown` field of `TDQResult`. -/
structure TDQBreakdown where
  acyclicity : EvaluationResult
  hierarchy : EvaluationResult
  balance : EvaluationResult
  granularity : EvaluationResult
  redundancy : EvaluationResult
  executability : EvaluationResult

/-- The issues `computeTDQ` can push, one constructor per push site, each
carrying the score its message interpolates. -/
inductive Issue where
  | cyclicDependency
  | lowHierarchy (score : ℚ)
  | unbalanced (score : ℚ)
  | badGranularity (score : ℚ)
  | redundantTasks (score : ℚ)
  | lowExecutability (score : ℚ)
deriving DecidableEq

/-- `TDQResult` from tdq.ts. -/
structure TDQResult where
  score : ℚ
  breakdown : TDQBreakdown
  weights : TDQWeights
  issues : List Issue

/-- The weighted composite score of `computeTDQ`. -/
def tdqScore (weights : TDQWeights) (A H B G R E : EvaluationResult) : ℚ :=
  weights.acyclicity * A.score + weights.hierarchy * H.score +
  weights.balance * B.score + weights.granularity * G.score +
  weights.redundancy * R.score + weights.executability * E.score

/-- The issue list of `computeTDQ`, in the source's push order. -/
def tdqIssues (A H B G R E : EvaluationResult) : List Issue :=
  (if A.score = 0 then [Issue.cyclicDependency] else []) ++
  (if H.score < 0.7 then [Issue.lowHierarchy H.score] else []) ++
  (if B.score < 0.5 then [Issue.unbalanced B.score] else []) ++
  (if G.score < 0.6 then [Issue.badGranularity G.score] else []) ++
  (if R.score < 0.8 then [Issue.redundantTasks R.score] else []) ++
  (if E.score < 0.6 then [Issue.lowExecutability E.score] else [])

/-- The `TDQResult` literal `computeTDQ` returns, given the six metric
results. -/
def tdqFrom (weights : TDQWeights) (A H B G R E : EvaluationResult) : TDQResult :=
  ⟨tdqScore weights A H B G R E, ⟨A, H, B, G, R, E⟩, weights, tdqIssues A H B G R E⟩

/-- `computeTDQ` from tdq.ts: run the three structural metrics and the three
semantic ones (only `computeRedundancy` can throw; the other awaited calls
always resolve) and aggregate. -/
def computeTDQ (tree : TaskNode) (weights : TDQWeights := DEFAULT_WEIGHTS) :
    Except String TDQResult := do
  let redundancy ← computeRedundancy embed sqrtQ tree
  pure (tdqFrom weights (computeAcyclicity tree) (computeHierarchyConsistency tree)
    (computeHierarchyBalance tree)
    (computeGranularity chat expQ parseFloatQ getEstimateEffortPrompt tree)
    redundancy
    (computeExecutability chat parseIntQ getJudgeExecutabilityPrompt tree))

theorem mem_ite_singleton {α : Type} (a b : α) (c : Prop) [Decidable c] :
    (a ∈ if c then [b] else []) ↔ c ∧ a = b := by
  by_cases h : c <;> simp [h]

/-- Claim C3: the composite score is exactly the weighted sum of the six
metric scores (with the default weights 0.10, 0.15, 0.10, 0.20, 0.10, 0.25);
the cyclic-dependency issue appears iff the acyclicity score is exactly 0 and
each warning appears iff its metric is strictly below its cutoff (0.7, 0.5,
0.6, 0.8, 0.6); the score conjunct shows the score is a function of the
weights and metric scores alone, so the issues never influence it. -/
theorem computeTDQ_spec (weights : TDQWeights) (tree : TaskNode)
    (A H B G R E : EvaluationResult) :
    (computeRedundancy embed sqrtQ tree = .ok R →
      computeTDQ chat embed sqrtQ expQ parseFloatQ parseIntQ getEstimateEffortPrompt
        getJudgeExecutabilityPrompt tree weights =
        .ok (tdqFrom weights (computeAcyclicity tree) (computeHierarchyConsistency tree)
          (computeHierarchyBalance tree)
          (computeGranularity chat expQ parseFloatQ getEstimateEffortPrompt tree)
          R (computeExecutability chat parseIntQ getJudgeExecutabilityPrompt tree))) ∧
    (tdqFrom weights A H B G R E).score =
      weights.acyclicity * A.score + weights.hierarchy * H.score +
      weights.balance * B.score + weights.granularity * G.score +
      weights.redundancy * R.score + weights.executability * E.score ∧
    (DEFAULT_WEIGHTS.acyclicity = 0.10 ∧ DEFAULT_WEIGHTS.hierarchy = 0.15 ∧
      DEFAULT_WEIGHTS.balance = 0.10 ∧ DEFAULT_WEIGHTS.granularity = 0.20 ∧
      DEFAULT_WEIGHTS.redundancy = 0.10 ∧ DEFAULT_WEIGHTS.executability = 0.25) ∧
    (Issue.cyclicDependency ∈ (tdqFrom weights A H B G R E).issues ↔ A.score = 0) ∧
    (Issue.lowHierarchy H.score ∈ (tdqFrom weights A H B G R E).issues ↔ H.score < 0.7) ∧
    (Issue.unbalanced B.score ∈ (tdqFrom weights A H B G R E).issues ↔ B.score < 0.5) ∧
    (Issue.badGranularity G.score ∈ (tdqFrom weights A H B G R E).issues ↔ G.score < 0.6) ∧
    (Issue.redundantTasks R.score ∈ (tdqFrom weights A H B G R E).issues ↔ R.score < 0.8) ∧
    (Issue.lowExecutability E.score ∈ (tdqFrom weights A H B G R E).issues ↔ E.score < 0.6) := by
  refine ⟨?_, rfl, ⟨rfl, rfl, rfl, rfl, rfl, rfl⟩, ?_, ?_, ?_, ?_, ?_, ?_⟩
  · intro hR
    unfold computeTDQ
    rw [hR, exceptBind_ok]
    rfl
  · simp [tdqFrom, tdqIssues, mem_ite_singleton]
  · simp [tdqFrom, tdqIssues, mem_ite_singleton]
  · simp [tdqFrom, tdqIssues, mem_ite_singleton]
  · simp [tdqFrom, tdqIssues, mem_ite_singleton]
  · simp [tdqFrom, tdqIssues, mem_ite_singleton]
  · simp [tdqFrom, tdqIssues, mem_ite_singleton]

/-! ## The optimizer loop (optimizer source, part_003)

`generateTaskTree` and `refineTaskTree` chat and then JSON-parse the reply
(`cleanAndParseJSON` throws on malformed output); prompt construction and
JSON parsing are excluded platform/LLM collaborators, so both are
parameters returning `Except`. The `while` loop runs the iteration counter
from 0 to `maxIterations`; it is modelled structurally on the remaining
budget `maxIterations − iteration`, with the JS `number` budget rendered as
a natural number. -/

variable (generateTaskTree : String → Except String TaskNode)
variable (refineTaskTree : TaskNode → TDQResult → Except String TaskNode)

/-- `OptimizationConfig` from the optimizer source. -/
structure OptimizationConfig where
  maxIterations : ℕ
  targetTDQ : ℚ
  verbose : Bool

/-- `DEFAULT_CONFIG` from the optimizer source. -/
def DEFAULT_CONFIG : OptimizationConfig := ⟨5, 0.75, true⟩

/-- One entry of `OptimizationResult.history`: the 1-based iteration number,
that iteration's composite score, and its issue list. -/
structure HistoryEntry where
  iteration : ℕ
  tdq : ℚ
  issues : List Issue
deriving DecidableEq

/-- `OptimizationResult` from the optimizer source (the `finalTree`,
`finalTDQ`, `iterations`, `history` record). -/
structure OptimizationResult where
  finalTree : TaskNode
  finalTDQ : TDQResult
  iterations : ℕ
  history : List HistoryEntry

/-- The `while (iteration < maxIterations)` loop of
`optimizeTaskDecomposition`, structurally on the remaining budget
`r = maxIterations − iteration`. Each pass evaluates the current tree,
appends one history entry `{iteration + 1, score, issues}`, returns early
with `iterations = iteration + 1` when the score reaches the target,
refines only when `iteration < maxIterations − 1` (that is, `0 < r − 1`),
and on exhaustion (`r = 0`) evaluates the unchanged tree once more for
`finalTDQ` and returns `iterations = maxIterations` without touching the
history. -/
def optimizeLoop (cfg : OptimizationConfig) :
    ℕ → TaskNode → List HistoryEntry → Except String OptimizationResult
  | 0, tree, history => do
    let finalTDQ ← computeTDQ chat embed sqrtQ expQ parseFloatQ parseIntQ
      getEstimateEffortPrompt getJudgeExecutabilityPrompt tree
    pure ⟨tree, finalTDQ, cfg.maxIterations, history⟩
  | r + 1, tree, history => do
    let tdqResult ← computeTDQ chat embed sqrtQ expQ parseFloatQ parseIntQ
      getEstimateEffortPrompt getJudgeExecutabilityPrompt tree
    if cfg.targetTDQ ≤ tdqResult.score then
      pure ⟨tree, tdqResult, cfg.maxIterations - r,
        history ++ [⟨cfg.maxIterations - r, tdqResult.score, tdqResult.issues⟩]⟩
    else do
      let tree' ← if 0 < r then refineTaskTree tree tdqResult else pure tree
      optimizeLoop cfg r tree'
        (history ++ [⟨cfg.maxIterations - r, tdqResult.score, tdqResult.issues⟩])

/-- `optimizeTaskDecomposition` from the optimizer source: generate the
initial tree, then run the loop with the full budget and empty history. -/
def optimizeTaskDecomposition (userInput : String)
    (cfg : OptimizationConfig := DEFAULT_CONFIG) : Except String OptimizationResult := do
  let currentTree ← generateTaskTree userInput
  optimizeLoop chat embed sqrtQ expQ parseFloatQ parseIntQ getEstimateEffortPrompt
    getJudgeExecutabilityPrompt refineTaskTree cfg cfg.maxIterations currentTree []

theorem optimizeLoop_sound (cfg : OptimizationConfig) :
    ∀ (r : ℕ) (tree : TaskNode) (history : List HistoryEntry) (res : OptimizationResult),
      r ≤ cfg.maxIterations →
      history.length = cfg.maxIterations - r →
      optimizeLoop chat embed sqrtQ expQ parseFloatQ parseIntQ getEstimateEffortPrompt
        getJudgeExecutabilityPrompt refineTaskTree cfg r tree history = .ok res →
      (∃ suffix, res.history = history ++ suffix) ∧
      res.history.length = res.iterations ∧
      res.iterations ≤ cfg.maxIterations ∧
      (0 < r → cfg.maxIterations - r + 1 ≤ res.iterations) ∧
      (∀ (k : ℕ) (e : HistoryEntry), history.length ≤ k → res.history[k]? = some e →
        ∃ (t : TaskNode) (tdq : TDQResult),
          computeTDQ chat embed sqrtQ expQ parseFloatQ parseIntQ getEstimateEffortPrompt
            getJudgeExecutabilityPrompt t DEFAULT_WEIGHTS = .ok tdq ∧
          e = ⟨k + 1, tdq.score, tdq.issues⟩ ∧
          (k + 1 < res.iterations → tdq.score < cfg.targetTDQ)) ∧
      (res.iterations = cfg.maxIterations ∨
        ∃ e, res.history.getLast? = some e ∧ cfg.targetTDQ ≤ e.tdq) ∧
      computeTDQ chat embed sqrtQ expQ parseFloatQ parseIntQ getEstimateEffortPrompt
        getJudgeExecutabilityPrompt res.finalTree DEFAULT_WEIGHTS = .ok res.finalTDQ ∧
      ((∀ (k : ℕ) (e : HistoryEntry), history.length ≤ k → res.history[k]? = some e →
          e.tdq < cfg.targetTDQ) → 0 < r →
        res.iterations = cfg.maxIterations ∧
        res.history.getLast? = some ⟨cfg.maxIterations, res.finalTDQ.score,
          res.finalTDQ.issues⟩) ∧
      (r = 0 → res.finalTree = tree ∧ res.iterations = cfg.maxIterations ∧
        res.history = history) := by
  intro r
  induction r with
  | zero =>
    intro tree history res hr hlen he
    simp only [optimizeLoop] at he
    cases hA : computeTDQ chat embed sqrtQ expQ parseFloatQ parseIntQ getEstimateEffortPrompt
        getJudgeExecutabilityPrompt tree DEFAULT_WEIGHTS with
    | error err =>
      rw [hA, exceptBind_error] at he
      exact Except.noConfusion he
    | ok f =>
      rw [hA, exceptBind_ok] at he
      have hres : OptimizationResult.mk tree f cfg.maxIterations history = res :=
        Except.ok.inj he
      subst hres
      refine ⟨⟨[], by simp⟩, by simpa using hlen, le_refl _, by omega, ?_, Or.inl rfl,
        hA, fun _ h0 => absurd h0 (by omega), fun _ => ⟨rfl, rfl, rfl⟩⟩
      intro k e hk hke
      rw [List.getElem?_eq_none (by simpa using hk)] at hke
      exact Option.noConfusion hke
  | succ r ih =>
    intro tree history res hr hlen he
    simp only [optimizeLoop] at he
    cases hA : computeTDQ chat embed sqrtQ expQ parseFloatQ parseIntQ getEstimateEffortPrompt
        getJudgeExecutabilityPrompt tree DEFAULT_WEIGHTS with
    | error err =>
      rw [hA, exceptBind_error] at he
      exact Except.noConfusion he
    | ok tdqR =>
      rw [hA, exceptBind_ok] at he
      by_cases hT : cfg.targetTDQ ≤ tdqR.score
      · rw [if_pos hT] at he
        have hres : OptimizationResult.mk tree tdqR (cfg.maxIterations - r)
            (history ++ [⟨cfg.maxIterations - r, tdqR.score, tdqR.issues⟩]) = res :=
          Except.ok.inj he
        subst hres
        have hb : (history ++ [(⟨cfg.maxIterations - r, tdqR.score, tdqR.issues⟩ :
            HistoryEntry)])[history.length]? =
            some ⟨cfg.maxIterations - r, tdqR.score, tdqR.issues⟩ :=
          List.getElem?_concat_length _ _
        refine ⟨⟨[⟨cfg.maxIterations - r, tdqR.score, tdqR.issues⟩], rfl⟩,
          by simp [hlen]; omega,
          by show cfg.maxIterations - r ≤ cfg.maxIterations; omega,
          by intro _; show cfg.maxIterations - (r + 1) + 1 ≤ cfg.maxIterations - r; omega,
          ?_, Or.inr ?_, hA, ?_, fun h0 => Nat.noConfusion h0⟩
        · intro k e hk hke
          rcases Nat.lt_or_ge k (history.length + 1) with hk1 | hk1
          · have hkk : k = history.length := by omega
            rw [hkk, hb] at hke
            obtain rfl := Option.some.inj hke
            refine ⟨tree, tdqR, hA, ?_, ?_⟩
            · show (⟨cfg.maxIterations - r, tdqR.score, tdqR.issues⟩ : HistoryEntry) =
                ⟨k + 1, tdqR.score, tdqR.issues⟩
              rw [show cfg.maxIterations - r = k + 1 from by omega]
            · intro hlt
              have hlt2 : k + 1 < cfg.maxIterations - r := hlt
              omega
          · rw [List.getElem?_eq_none (by simp; omega)] at hke
            exact Option.noConfusion hke
        · exact ⟨⟨cfg.maxIterations - r, tdqR.score, tdqR.issues⟩,
            List.getLast?_concat _, hT⟩
        · intro hlow _
          exfalso
          have := hlow history.length _ (le_refl _) hb
          simp only at this
          exact absurd hT (not_le.mpr this)
      · rw [if_neg hT] at he
        have hscore : tdqR.score < cfg.targetTDQ := not_le.mp hT
        have hlen' : (history ++ [(⟨cfg.maxIterations - r, tdqR.score, tdqR.issues⟩ :
            HistoryEntry)]).length = cfg.maxIterations - r := by
          simp [hlen]; omega
        by_cases hr0 : 0 < r
        · rw [if_pos hr0] at he
          cases hS : refineTaskTree tree tdqR with
          | error err =>
            rw [hS, exceptBind_error] at he
            exact Except.noConfusion he
          | ok tree' =>
            rw [hS, exceptBind_ok] at he
            obtain ⟨⟨suffix, hsuf⟩, hlen2, hle, hge, hPE, hdone, hfin, hexh, hzero⟩ :=
              ih tree' (history ++ [⟨cfg.maxIterations - r, tdqR.score, tdqR.issues⟩]) res
                (by omega) hlen' he
            have hb : res.history[history.length]? =
                some ⟨cfg.maxIterations - r, tdqR.score, tdqR.issues⟩ := by
              rw [hsuf, List.getElem?_append_left (by simp)]
              exact List.getElem?_concat_length _ _
            refine ⟨⟨⟨cfg.maxIterations - r, tdqR.score, tdqR.issues⟩ :: suffix,
                by rw [hsuf]; simp⟩, hlen2, hle, ?_, ?_, hdone, hfin, ?_, fun h0 =>
                Nat.noConfusion h0⟩
            · intro _
              have := hge hr0
              omega
            · intro k e hk hke
              rcases Nat.lt_or_ge k (history.length + 1) with hk1 | hk1
              · have hkk : k = history.length := by omega
                rw [hkk, hb] at hke
                obtain rfl := Option.some.inj hke
                refine ⟨tree, tdqR, hA, ?_, fun _ => hscore⟩
                show (⟨cfg.maxIterations - r, tdqR.score, tdqR.issues⟩ : HistoryEntry) =
                  ⟨k + 1, tdqR.score, tdqR.issues⟩
                rw [show cfg.maxIterations - r = k + 1 from by omega]
              · exact hPE k e (by rw [hlen']; omega) hke
            · intro hlow _
              exact hexh (fun k e hk hke => hlow k e (by omega) hke) hr0
        · have hr00 : r = 0 := by omega
          rw [if_neg hr0, exceptBind_pure] at he
          obtain ⟨⟨suffix, hsuf⟩, hlen2, hle, hge, hPE, hdone, hfin, hexh, hzero⟩ :=
            ih tree (history ++ [⟨cfg.maxIterations - r, tdqR.score, tdqR.issues⟩]) res
              (by omega) hlen' he
          have hb : res.history[history.length]? =
              some ⟨cfg.maxIterations - r, tdqR.score, tdqR.issues⟩ := by
            rw [hsuf, List.getElem?_append_left (by simp)]
            exact List.getElem?_concat_length _ _
          refine ⟨⟨⟨cfg.maxIterations - r, tdqR.score, tdqR.issues⟩ :: suffix,
              by rw [hsuf]; simp⟩, hlen2, hle, ?_, ?_, hdone, hfin, ?_, fun h0 =>
              Nat.noConfusion h0⟩
          · intro _
            have := (hzero hr00).2.1
            omega
          · intro k e hk hke
            rcases Nat.lt_or_ge k (history.length + 1) with hk1 | hk1
            · have hkk : k = history.length := by omega
              rw [hkk, hb] at hke
              obtain rfl := Option.some.inj hke
              refine ⟨tree, tdqR, hA, ?_, fun _ => hscore⟩
              show (⟨cfg.maxIterations - r, tdqR.score, tdqR.issues⟩ : HistoryEntry) =
                ⟨k + 1, tdqR.score, tdqR.issues⟩
              rw [show cfg.maxIterations - r = k + 1 from by omega]
            · exact hPE k e (by rw [hlen']; omega) hke
          · intro hlow _
            obtain ⟨hft, hit, hh⟩ := hzero hr00
            have hfd : res.finalTDQ = tdqR := by
              rw [hft, hA] at hfin
              exact (Except.ok.inj hfin).symm
            refine ⟨hit, ?_⟩
            rw [hh, List.getLast?_concat, hfd]
            rw [show cfg.maxIterations - r = cfg.maxIterations from by omega]

/-- Claim C4: in every successful run, the history has exactly one entry per
loop evaluation, numbered 1..n in order (entry k carries iteration k + 1,
some evaluation's composite score and issue list), every evaluation before
the final one scored below the target (the loop never stops early without
reaching the target), the run ends either with the budget exhausted or with
the last recorded score at or above the target, and the returned iteration
count equals the number of history entries and never exceeds the configured
maximum. -/
theorem optimizeTaskDecomposition_spec (cfg : OptimizationConfig) (userInput : String)
    (res : OptimizationResult)
    (hrun : optimizeTaskDecomposition chat embed sqrtQ expQ parseFloatQ parseIntQ
      getEstimateEffortPrompt getJudgeExecutabilityPrompt generateTaskTree refineTaskTree
      userInput cfg = .ok res) :
    res.history.length = res.iterations ∧
    res.iterations ≤ cfg.maxIterations ∧
    (1 ≤ cfg.maxIterations → 1 ≤ res.iterations) ∧
    (∀ (k : ℕ) (e : HistoryEntry), res.history[k]? = some e →
      ∃ (t : TaskNode) (tdq : TDQResult),
        computeTDQ chat embed sqrtQ expQ parseFloatQ parseIntQ getEstimateEffortPrompt
          getJudgeExecutabilityPrompt t DEFAULT_WEIGHTS = .ok tdq ∧
        e = ⟨k + 1, tdq.score, tdq.issues⟩ ∧
        (k + 1 < res.iterations → tdq.score < cfg.targetTDQ)) ∧
    (res.iterations = cfg.maxIterations ∨
      ∃ e, res.history.getLast? = some e ∧ cfg.targetTDQ ≤ e.tdq) := by
  unfold optimizeTaskDecomposition at hrun
  cases hG : generateTaskTree userInput with
  | error err =>
    rw [hG, exceptBind_error] at hrun
    exact Except.noConfusion hrun
  | ok t0 =>
    rw [hG, exceptBind_ok] at hrun
    obtain ⟨_, hlen2, hle, hge, hPE, hdone, _, _, _⟩ :=
      optimizeLoop_sound chat embed sqrtQ expQ parseFloatQ parseIntQ
        getEstimateEffortPrompt getJudgeExecutabilityPrompt refineTaskTree cfg
        cfg.maxIterations t0 [] res (le_refl _) (by simp) hrun
    refine ⟨hlen2, hle, ?_, ?_, hdone⟩
    · intro h1
      have := hge h1
      omega
    · intro k e hke
      exact hPE k e (by simp) hke

/-- Claim C10: when every recorded evaluation scored below the target (the
budget runs out), the loop's last iteration does not refine the tree, the
returned `finalTDQ` is one additional evaluation of that unchanged final
tree performed after the loop, the history keeps exactly `maxIterations`
entries (the extra evaluation is not appended), and — the collaborators
being deterministic functions — the last history entry's score equals
`finalTDQ.score`. -/
theorem optimizeTaskDecomposition_exhausted_spec (cfg : OptimizationConfig)
    (userInput : String) (res : OptimizationResult)
    (hrun : optimizeTaskDecomposition chat embed sqrtQ expQ parseFloatQ parseIntQ
      getEstimateEffortPrompt getJudgeExecutabilityPrompt generateTaskTree refineTaskTree
      userInput cfg = .ok res)
    (hmax : 1 ≤ cfg.maxIterations)
    (hlow : ∀ (k : ℕ) (e : HistoryEntry), res.history[k]? = some e →
      e.tdq < cfg.targetTDQ) :
    res.iterations = cfg.maxIterations ∧
    res.history.length = cfg.maxIterations ∧
    computeTDQ chat embed sqrtQ expQ parseFloatQ parseIntQ getEstimateEffortPrompt
      getJudgeExecutabilityPrompt res.finalTree DEFAULT_WEIGHTS = .ok res.finalTDQ ∧
    res.history.getLast? = some ⟨cfg.maxIterations, res.finalTDQ.score,
      res.finalTDQ.issues⟩ := by
  unfold optimizeTaskDecomposition at hrun
  cases hG : generateTaskTree userInput with
  | error err =>
    rw [hG, exceptBind_error] at hrun
    exact Except.noConfusion hrun
  | ok t0 =>
    rw [hG, exceptBind_ok] at hrun
    obtain ⟨_, hlen2, _, _, _, _, hfin, hexh, _⟩ :=
      optimizeLoop_sound chat embed sqrtQ expQ parseFloatQ parseIntQ
        getEstimateEffortPrompt getJudgeExecutabilityPrompt refineTaskTree cfg
        cfg.maxIterations t0 [] res (le_refl _) (by simp) hrun
    obtain ⟨hit, hlast⟩ := hexh (fun k e _ hke => hlow k e hke) (by omega)
    exact ⟨hit, by omega, hfin, hlast⟩

end Semantic

/-- A concrete run of the granularity spec: one leaf, estimate 3 against the
ideal band [1, 2] (midpoint 3/2), exponential modelled by a function that is
1/2 on negatives — the leaf scores strictly below 1 and the metric returns
the mean 1/2. -/
theorem computeGranularity_spec_witness :
    (granularityEntry (fun _ => "3") (fun x => if x < 0 then (1:ℚ)/2 else 1)
        (fun _ => some 3) (fun _ => "")
        (TaskNode.mk "l" "L" none none none [] []) 1 2 1).2.2 < 1 ∧
    (computeGranularity (fun _ => "3") (fun x => if x < 0 then (1:ℚ)/2 else 1)
        (fun _ => some 3) (fun _ => "")
        (TaskNode.mk "l" "L" none none none [] []) 1 2 1).score = 1/2 := by
  have h := computeGranularity_spec (fun _ => "3") (fun x => if x < 0 then (1:ℚ)/2 else 1)
      (fun _ => some 3) (fun _ => "")
      (TaskNode.mk "l" "L" none none none [] []) 1 2 1
      (by norm_num) (by norm_num) (by norm_num)
      (by intro x hx; simp only [if_pos hx]; norm_num)
  refine ⟨((h.1 (TaskNode.mk "l" "L" none none none [] []) 3 rfl).2 (by norm_num)).2, ?_⟩
  rw [h.2.2 (by simp [getLeafNodes, preList, TaskNode.children])]
  simp [getLeafNodes, preList, granularityEntry, TaskNode.children]
  norm_num [abs_of_nonneg]

/-- A concrete run of the redundancy spec: a two-node tree whose embeddings
are all [1] (cosine similarity 1 under the identity square root), threshold
0.8 — the single pair (0, 1) is redundant, so the score is 1 − 1/1 = 0 and
the detail payload records that pair. -/
theorem computeRedundancy_spec_witness :
    computeRedundancy (fun _ => [(1:ℚ)]) (fun q => q)
      (TaskNode.mk "r" "R" none none none [TaskNode.mk "c" "C" none none none [] []] []) 0.8 =
      .ok ⟨0, some (.redundancyD 1 1 0.8 [(0, 1, 1)])⟩ := by
  have h := computeRedundancy_spec (fun _ => [(1:ℚ)]) (fun q => q)
      (TaskNode.mk "r" "R" none none none [TaskNode.mk "c" "C" none none none [] []] []) 0.8
      (fun _ _ => rfl)
  have hn : (preList [TaskNode.mk "r" "R" none none none
      [TaskNode.mk "c" "C" none none none [] []] []]).length = 2 := by
    simp [preList, TaskNode.children]
  have hcos : cosVal (fun q => q) [(1:ℚ)] [(1:ℚ)] = 1 := by
    unfold cosVal
    norm_num
  have hred : redPair (fun q => q) (4/5 : ℚ) [[(1:ℚ)], [(1:ℚ)]] (0, 1) = true := by
    unfold redPair
    rw [decide_eq_true_eq]
    show (4/5 : ℚ) < cosVal (fun q => q) [(1:ℚ)] [(1:ℚ)]
    rw [hcos]
    norm_num
  rw [h.2.1 (by omega), hn]
  norm_num [preList, TaskNode.children, show pairIdx 2 = [((0:ℕ), (1:ℕ))] from rfl,
    hred, hcos, List.getD_cons_zero, List.getD_cons_succ,
    List.getElem?_cons_zero, List.getElem?_cons_succ]

/-- The single-task tree of the optimizer run below. -/
def c4Tree : TaskNode := .mk "a" "A" none none none [] []

/-- The TDQ evaluation of `c4Tree` under the collaborators of the optimizer
run below: all metrics score 1 except executability (rating 3 → 1/2). -/
def c4TDQ : TDQResult :=
  tdqFrom DEFAULT_WEIGHTS ⟨1, some (.acyclicityD false)⟩ ⟨1, none⟩
    ⟨1, some (.balanceD 0 none)⟩ ⟨1, some (.granularityD 1 1 8 [("A", 3, 1)])⟩
    ⟨1, some (.redundancyTrivialD 0 0)⟩ ⟨1/2, some (.executabilityD 1 [("A", 3, 1/2)])⟩

theorem c4TDQ_score : c4TDQ.score = 31/40 := by
  norm_num [c4TDQ, tdqFrom, tdqScore, DEFAULT_WEIGHTS]

theorem c4_preList : preList [TaskNode.mk "a" "A" none none none [] []] =
    [TaskNode.mk "a" "A" none none none [] []] := by
  simp [preList, TaskNode.children]

theorem c4_computeTDQ :
    computeTDQ (fun _ => "3") (fun _ => [(1:ℚ)]) (fun q => q) (fun q => q)
      (fun _ => some 3) (fun _ => some 3) (fun _ => "") (fun _ => "")
      c4Tree DEFAULT_WEIGHTS = .ok c4TDQ := by
  have hR0 : computeRedundancy (fun _ => [(1:ℚ)]) (fun q => q) c4Tree 0.8 =
      .ok ⟨1, some (.redundancyTrivialD 0 0)⟩ := by
    unfold computeRedundancy c4Tree
    rw [if_pos (by rw [c4_preList]; norm_num)]
  have hA0 : computeAcyclicity c4Tree = ⟨1, some (.acyclicityD false)⟩ := by
    simp [computeAcyclicity, getAllNodes, c4_preList, c4Tree, mapOfList, mapKeys, mapSet,
      mapGet, dfsAll, dfsNode, adjOf, dfsVisit, TaskNode.id, TaskNode.children,
      TaskNode.dependencies, mapHas]
  have hH0 : computeHierarchyConsistency c4Tree = ⟨1, none⟩ := by
    simp [computeHierarchyConsistency, edgeDepthPairs, getAllNodes, c4_preList, c4Tree,
      mapOfList, mapSet, mapValues, mapHas, mapGet, TaskNode.id, TaskNode.children,
      TaskNode.dependencies]
  have hB0 : computeHierarchyBalance c4Tree = ⟨1, some (.balanceD 0 none)⟩ := by
    simp [computeHierarchyBalance, getAllNodes, c4_preList, c4Tree, mapOfList, mapSet,
      mapValues, mapHas, mapGet, TaskNode.id, TaskNode.children]
  have hG0 : computeGranularity (fun _ => "3") (fun q => q) (fun _ => some 3) (fun _ => "")
      c4Tree = ⟨1, some (.granularityD 1 1 8 [("A", 3, 1)])⟩ := by
    simp [computeGranularity, getLeafNodes, c4_preList, granularityEntry, c4Tree,
      TaskNode.children, TaskNode.title]
    norm_num
  have hE0 : computeExecutability (fun _ => "3") (fun _ => some 3) (fun _ => "") c4Tree =
      ⟨1/2, some (.executabilityD 1 [("A", 3, 1/2)])⟩ := by
    simp [computeExecutability, getLeafNodes, c4_preList, executabilityEntry, c4Tree,
      TaskNode.children, TaskNode.title]
    norm_num
  unfold computeTDQ
  rw [hR0, exceptBind_ok, hA0, hH0, hB0, hG0, hE0]
  rfl

theorem c4_run :
    optimizeTaskDecomposition (fun _ => "3") (fun _ => [(1:ℚ)]) (fun q => q) (fun q => q)
      (fun _ => some 3) (fun _ => some 3) (fun _ => "") (fun _ => "")
      (fun _ => .ok c4Tree) (fun _ _ => .ok c4Tree) "task" ⟨1, 2, true⟩ =
      .ok ⟨c4Tree, c4TDQ, 1, [⟨1, c4TDQ.score, c4TDQ.issues⟩]⟩ := by
  have h1 : optimizeTaskDecomposition (fun _ => "3") (fun _ => [(1:ℚ)]) (fun q => q)
      (fun q => q) (fun _ => some 3) (fun _ => some 3) (fun _ => "") (fun _ => "")
      (fun _ => .ok c4Tree) (fun _ _ => .ok c4Tree) "task" ⟨1, 2, true⟩ =
      optimizeLoop (fun _ => "3") (fun _ => [(1:ℚ)]) (fun q => q) (fun q => q)
        (fun _ => some 3) (fun _ => some 3) (fun _ => "") (fun _ => "")
        (fun _ _ => .ok c4Tree) ⟨1, 2, true⟩ 1 c4Tree [] := rfl
  rw [h1, show (1:ℕ) = 0 + 1 from rfl]
  simp only [optimizeLoop]
  rw [c4_computeTDQ, exceptBind_ok]
  rw [if_neg (show ¬((⟨1, 2, true⟩ : OptimizationConfig).targetTDQ ≤ c4TDQ.score) from by
    rw [c4TDQ_score]; norm_num)]
  rw [if_neg (by omega)]
  simp only [exceptBind_pure, c4_computeTDQ, exceptBind_ok]
  rfl

/-- A concrete optimizer run for the history invariants: budget 1, target 2
(unreachable), a single-task tree whose evaluation scores 31/40 — one history
entry numbered 1, iteration count 1 equal to the history length, and the run
ends with the budget exhausted. -/
theorem optimizeTaskDecomposition_spec_witness :
    ∃ res : OptimizationResult,
      optimizeTaskDecomposition (fun _ => "3") (fun _ => [(1:ℚ)]) (fun q => q) (fun q => q)
        (fun _ => some 3) (fun _ => some 3) (fun _ => "") (fun _ => "")
        (fun _ => .ok c4Tree) (fun _ _ => .ok c4Tree) "task" ⟨1, 2, true⟩ = .ok res ∧
      res.history.length = res.iterations ∧
      res.iterations = 1 ∧
      (∀ (k : ℕ) (e : HistoryEntry), res.history[k]? = some e →
        ∃ (t : TaskNode) (tdq : TDQResult),
          computeTDQ (fun _ => "3") (fun _ => [(1:ℚ)]) (fun q => q) (fun q => q)
            (fun _ => some 3) (fun _ => some 3) (fun _ => "") (fun _ => "")
            t DEFAULT_WEIGHTS = .ok tdq ∧
          e = ⟨k + 1, tdq.score, tdq.issues⟩ ∧
          (k + 1 < res.iterations → tdq.score < (2:ℚ))) := by
  refine ⟨⟨c4Tree, c4TDQ, 1, [⟨1, c4TDQ.score, c4TDQ.issues⟩]⟩, c4_run, ?_⟩
  have h := optimizeTaskDecomposition_spec (fun _ => "3") (fun _ => [(1:ℚ)]) (fun q => q)
    (fun q => q) (fun _ => some 3) (fun _ => some 3) (fun _ => "") (fun _ => "")
    (fun _ => .ok c4Tree) (fun _ _ => .ok c4Tree) ⟨1, 2, true⟩ "task"
    ⟨c4Tree, c4TDQ, 1, [⟨1, c4TDQ.score, c4TDQ.issues⟩]⟩ c4_run
  exact ⟨h.1, rfl, h.2.2.2.1⟩

/-- The same run exercises the exhaustion path: no evaluation reached the
target, so the returned `finalTDQ` is the extra post-loop evaluation of the
unchanged tree, the history keeps exactly one entry, and the last entry's
score equals `finalTDQ.score`. -/
theorem optimizeTaskDecomposition_exhausted_spec_witness :
    (OptimizationResult.mk c4Tree c4TDQ 1 [⟨1, c4TDQ.score, c4TDQ.issues⟩]).iterations = 1 ∧
    (OptimizationResult.mk c4Tree c4TDQ 1
      [⟨1, c4TDQ.score, c4TDQ.issues⟩]).history.length = 1 ∧
    computeTDQ (fun _ => "3") (fun _ => [(1:ℚ)]) (fun q => q) (fun q => q)
      (fun _ => some 3) (fun _ => some 3) (fun _ => "") (fun _ => "")
      (OptimizationResult.mk c4Tree c4TDQ 1
        [⟨1, c4TDQ.score, c4TDQ.issues⟩]).finalTree DEFAULT_WEIGHTS =
      .ok (OptimizationResult.mk c4Tree c4TDQ 1
        [⟨1, c4TDQ.score, c4TDQ.issues⟩]).finalTDQ ∧
    (OptimizationResult.mk c4Tree c4TDQ 1
      [⟨1, c4TDQ.score, c4TDQ.issues⟩]).history.getLast? =
      some ⟨1, (OptimizationResult.mk c4Tree c4TDQ 1
        [⟨1, c4TDQ.score, c4TDQ.issues⟩]).finalTDQ.score,
        (OptimizationResult.mk c4Tree c4TDQ 1
          [⟨1, c4TDQ.score, c4TDQ.issues⟩]).finalTDQ.issues⟩ := by
  have hlow : ∀ (k : ℕ) (e : HistoryEntry),
      (OptimizationResult.mk c4Tree c4TDQ 1
        [⟨1, c4TDQ.score, c4TDQ.issues⟩]).history[k]? = some e →
      e.tdq < (⟨1, 2, true⟩ : OptimizationConfig).targetTDQ := by
    intro k e hke
    cases k with
    | zero =>
      obtain rfl := Option.some.inj hke
      show c4TDQ.score < (2:ℚ)
      rw [c4TDQ_score]
      norm_num
    | succ n =>
      exact Option.noConfusion hke
  exact optimizeTaskDecomposition_exhausted_spec (fun _ => "3") (fun _ => [(1:ℚ)])
    (fun q => q) (fun q => q) (fun _ => some 3) (fun _ => some 3) (fun _ => "")
    (fun _ => "") (fun _ => .ok c4Tree) (fun _ _ => .ok c4Tree) ⟨1, 2, true⟩ "task"
    ⟨c4Tree, c4TDQ, 1, [⟨1, c4TDQ.score, c4TDQ.issues⟩]⟩ c4_run (le_refl 1) hlow

/-- A concrete run of the fallback spec: one leaf, a chat answer that does
not parse (granularity and executability) and one that parses to the
out-of-range rating 7 — every fallback entry appears and both metrics still
produce a one-entry detail list. -/
theorem unparseableJudgment_spec_witness :
    granularityEntry (fun _ => "x") (fun x => x) (fun _ => none) (fun _ => "")
      (TaskNode.mk "l" "L" none none none [] []) 1 2 1 = ("L", -1, 1/2) ∧
    executabilityEntry (fun _ => "x") (fun _ => none) (fun _ => "")
      (TaskNode.mk "l" "L" none none none [] []) = ("L", 3, 1/2) ∧
    executabilityEntry (fun _ => "x") (fun _ => some 7) (fun _ => "")
      (TaskNode.mk "l" "L" none none none [] []) = ("L", 3, 1/2) ∧
    (computeGranularity (fun _ => "x") (fun x => x) (fun _ => none) (fun _ => "")
      (TaskNode.mk "l" "L" none none none [] []) 1 2 1).details =
      some (.granularityD 1 1 2 [("L", -1, 1/2)]) ∧
    (computeExecutability (fun _ => "x") (fun _ => none) (fun _ => "")
      (TaskNode.mk "l" "L" none none none [] [])).details =
      some (.executabilityD 1 [("L", 3, 1/2)]) := by
  have hA := unparseableJudgment_spec (fun _ => "x") (fun x => x) (fun _ => none)
      (fun _ => none) (fun _ => "") (fun _ => "")
      (TaskNode.mk "l" "L" none none none [] []) 1 2 1
  have hB := unparseableJudgment_spec (fun _ => "x") (fun x => x) (fun _ => none)
      (fun _ => some 7) (fun _ => "") (fun _ => "")
      (TaskNode.mk "l" "L" none none none [] []) 1 2 1
  refine ⟨hA.1 _ rfl, hA.2.1 _ rfl, hB.2.2.1 _ 7 rfl (by norm_num), ?_, ?_⟩
  · rw [hA.2.2.2.1 (by simp [getLeafNodes, preList, TaskNode.children])]
    simp [getLeafNodes, preList, granularityEntry, TaskNode.children, TaskNode.title]
  · rw [hA.2.2.2.2 (by simp [getLeafNodes, preList, TaskNode.children])]
    simp [getLeafNodes, preList, executabilityEntry, TaskNode.children, TaskNode.title]

end TaskForge
